import Mathlib

/-!
Verification of the brainstorm recurrent-network library against its
specification.  The development shallowly embeds the Python sources:

* `src/brainstorm/training/trainer.py` — hook dispatch, the `train` loop,
  log accumulation, and the two data-feeding drivers;
* `src/brainstorm/layers/lstm_peephole.py` — the peephole-LSTM layer:
  `setup` (shape declarations and validation), `forward_pass` and
  `backward_pass`.

Tensors over time/batch/features are embedded as functions
`ℕ → Fin B → Fin n → α`; the matrix/vector backend operations
(`dot_mm`, `dot_add_mm`, `mult_add_mv`, …) become explicit `Finset` sums,
mirroring operand order and transposition flags of each call site.
-/

namespace Brainstorm

/-! ## Trainer: hooks and dispatch (`trainer.py`) -/

/-- The two hook timescales recognized by `Trainer._emit_hooks`. -/
inductive Timescale where
  | epoch : Timescale
  | update : Timescale
deriving DecidableEq

/-- A hook as the trainer sees it: a name, a timescale, an interval, and its
call behavior abstracted to the stop signal it raises (`StopIteration`), as a
function of the current epoch and update counters. -/
structure Hook where
  name : String
  timescale : Timescale
  interval : ℕ
  stop : ℕ → ℕ → Bool

/-- The counter `_emit_hooks` compares against:
`count = self.current_epoch_nr if timescale == 'epoch' else self.current_update_nr`. -/
def emitCount (ts : Timescale) (epoch_nr update_nr : ℕ) : ℕ :=
  match ts with
  | .epoch => epoch_nr
  | .update => update_nr

/-- The guard of `_emit_hooks`: the hook is skipped (`continue`) unless its
timescale matches and `count % hook.interval == 0`. -/
def hookFires (h : Hook) (ts : Timescale) (count : ℕ) : Bool :=
  h.timescale == ts && count % h.interval == 0

/-- The hooks actually called by one `_emit_hooks(net, timescale)` dispatch,
in insertion order. -/
def invokedHooks (hooks : List Hook) (ts : Timescale) (epoch_nr update_nr : ℕ) :
    List Hook :=
  hooks.filter (fun h => hookFires h ts (emitCount ts epoch_nr update_nr))

/-- The `should_stop` result of `_emit_hooks`: every invoked hook is called and
its stop signal is or-ed into the result (`should_stop |= stop`). -/
def emitStop (hooks : List Hook) (ts : Timescale) (epoch_nr update_nr : ℕ) :
    Bool :=
  (invokedHooks hooks ts epoch_nr update_nr).foldl
    (fun acc h => acc || h.stop epoch_nr update_nr) false

/-! ## Trainer: the `train` loop as an event trace -/

/-- Observable events of `Trainer.train`: a call to `_emit_hooks` at a
timescale (with the counter values at that moment), one optimization step
(`self.stepper.run()` at the given update number), and the start of an epoch
(`self.current_epoch_nr += 1`). -/
inductive TrainEv where
  | dispatch (ts : Timescale) (epoch_nr update_nr : ℕ) : TrainEv
  | step (update_nr : ℕ) : TrainEv
  | epochStart (epoch_nr : ℕ) : TrainEv
deriving DecidableEq

/-- The inner `for _ in run(net, iterator)` loop of `train`, iterating over
`batches` remaining batches: increment the update counter, run the stepper,
dispatch `update`-timescale hooks, and break if they signal stop.  Returns the
events and the final update counter. -/
def innerLoop (hooks : List Hook) (epoch_nr : ℕ) :
    ℕ → ℕ → List TrainEv × ℕ
  | update_nr, 0 => ([], update_nr)
  | update_nr, batches + 1 =>
      let u := update_nr + 1
      let evs := [TrainEv.step u, TrainEv.dispatch .update epoch_nr u]
      if emitStop hooks .update epoch_nr u then (evs, u)
      else
        let r := innerLoop hooks epoch_nr u batches
        (evs ++ r.1, r.2)

/-- The `while True` epoch loop of `train`, driven by explicit fuel: each
round increments the epoch counter, runs the inner loop, dispatches
`epoch`-timescale hooks and ends training if they signal stop. -/
def epochLoop (hooks : List Hook) (batches : ℕ) :
    ℕ → ℕ → ℕ → List TrainEv
  | 0, _, _ => []
  | fuel + 1, epoch_nr, update_nr =>
      let e := epoch_nr + 1
      let inner := innerLoop hooks e update_nr batches
      let evs := TrainEv.epochStart e ::
        inner.1 ++ [TrainEv.dispatch .epoch e inner.2]
      if emitStop hooks .epoch e inner.2 then evs
      else evs ++ epochLoop hooks batches fuel e inner.2

/-- The event trace of `Trainer.train` after `self._start_hooks`: the baseline
`if self._emit_hooks(net, 'epoch') or self._emit_hooks(net, 'update'): return`
(note Python's short-circuiting `or`), then the epoch loop. -/
def train (hooks : List Hook) (batches fuel : ℕ) : List TrainEv :=
  if emitStop hooks .epoch 0 0 then [TrainEv.dispatch .epoch 0 0]
  else if emitStop hooks .update 0 0 then
    [TrainEv.dispatch .epoch 0 0, TrainEv.dispatch .update 0 0]
  else
    [TrainEv.dispatch .epoch 0 0, TrainEv.dispatch .update 0 0] ++
      epochLoop hooks batches fuel 0 0

/-- A hook whose first epoch-timescale baseline dispatch signals stop. -/
def stopAtOnceHook : Hook :=
  { name := "stopper", timescale := .epoch, interval := 1,
    stop := fun _ _ => true }

/-- A sample update-timescale hook with interval 2 that never signals stop. -/
def everySecondUpdateHook : Hook :=
  { name := "every2", timescale := .update, interval := 2,
    stop := fun _ _ => false }

/-! ## Trainer: log accumulation (`Trainer._add_log`) -/

/-- A hook's (non-`None`) return value: a scalar or a string-keyed mapping. -/
inductive HookVal (α : Type) : Type where
  | scalar (a : α) : HookVal α
  | mapping (items : List (String × HookVal α)) : HookVal α

/-- One entry of the trainer's `logs` structure: either an accumulated list of
scalars or a nested log mapping. -/
inductive LogEntry (α : Type) : Type where
  | seq (vals : List α) : LogEntry α
  | nested (logs : List (String × LogEntry α)) : LogEntry α

/-- The trainer's `logs` dictionary, as an insertion-ordered association
list. -/
abbrev Logs (α : Type) : Type := List (String × LogEntry α)

/-- Python dict assignment `logs[name] = e`: replace in place if the key
exists, else append a new entry. -/
def setLog {α : Type} (name : String) (e : LogEntry α) :
    Logs α → Logs α
  | [] => [(name, e)]
  | (k, v) :: rest =>
      if k = name then (name, e) :: rest else (k, v) :: setLog name e rest

mutual

/-- `Trainer._add_log(name, val, logs)` for a non-`None` value.  A scalar
value is appended to the list under `name` (created empty if absent); `none`
models the `AttributeError` Python raises by `logs[name].append(val)` when the
existing entry is a dict.  A mapping value keeps whatever is under `name`
(`logs[name] = dict() if name not in logs else logs[name]`) and then merges
the items into it: into a dict (created empty if the name was absent) this
recurses key-wise; into an existing list the zero-iteration loop of an empty
mapping succeeds without touching the list, while the first item raises a
`TypeError` on list assignment, modeled by `none`. -/
def addLog {α : Type} (name : String) (val : HookVal α) (logs : Logs α) :
    Option (Logs α) :=
  match val with
  | .scalar a =>
      match List.lookup name logs with
      | Option.none => some (setLog name (.seq [a]) logs)
      | some (.seq l) => some (setLog name (.seq (l ++ [a])) logs)
      | some (.nested _) => none
  | .mapping items =>
      match List.lookup name logs with
      | Option.none =>
          match addLogItems items ([] : Logs α) with
          | Option.none => none
          | some sub2 => some (setLog name (.nested sub2) logs)
      | some (.nested sub) =>
          match addLogItems items sub with
          | Option.none => none
          | some sub2 => some (setLog name (.nested sub2) logs)
      | some (.seq _) =>
          match items with
          | [] => some logs
          | _ :: _ => none

/-- The `for k, v in val.items(): self._add_log(k, v, …, logs[name], …)` loop
of the mapping branch. -/
def addLogItems {α : Type} (items : List (String × HookVal α)) (logs : Logs α) :
    Option (Logs α) :=
  match items with
  | [] => some logs
  | (k, v) :: rest =>
      match addLog k v logs with
      | Option.none => none
      | some l2 => addLogItems rest l2

end

/-! ## Trainer: data feeding (`run_network`, `run_network_double_buffer`) -/

/-- The single-threaded feeder `run_network`: for each batch of the iterator,
provide it to the network and yield.  Returns the sequence of batches provided
to `net.provide_external_data` and the number of yields. -/
def run_network {α : Type} : List α → List α × ℕ
  | [] => ([], 0)
  | x :: rest =>
      let r := run_network rest
      (x :: r.1, r.2 + 1)

/-- The `while not run_it.stop` loop of `run_network_double_buffer`, given the
items the iterator still holds.  Each round spawns a thread running
`run_it` (which provides the next batch, or sets the stop flag on
`StopIteration`), yields once, and joins the thread before the next round. -/
def doubleBufferLoop {α : Type} : List α → List α × ℕ
  | [] => ([], 1)
  | x :: rest =>
      let r := doubleBufferLoop rest
      (x :: r.1, r.2 + 1)

/-- The double-buffered feeder `run_network_double_buffer`: one initial
`run_it(iterator)` call (providing the first batch, or stopping immediately),
then the prefetch loop.  Returns the sequence of batches provided and the
number of yields. -/
def run_network_double_buffer {α : Type} (items : List α) : List α × ℕ :=
  match items with
  | [] => ([], 0)
  | x :: rest =>
      let r := doubleBufferLoop rest
      (x :: r.1, r.2)

/-! ## LSTM layer `setup`: size validation and declared parameter shapes -/

/-- A Python value in the `size` kwarg position, seen through
`isinstance(size, int)`: either an `int`, or anything else. -/
inductive PySize where
  | int (n : ℤ) : PySize
  | nonInt : PySize
deriving DecidableEq

/-- The size validation of `LstmPeepholeLayerImpl.setup`:
`self.size = kwargs.get('size', in_size)`, then raise `LayerValidationError`
iff `not isinstance(self.size, int)`. -/
def setupSizeCheck (size_kwarg : Option PySize) (in_size : ℤ) :
    Except String ℤ :=
  match size_kwarg.getD (.int in_size) with
  | .int n => .ok n
  | .nonInt => .error "size must be int"

/-- The ordered parameter shape declarations of `setup` (name, dims). -/
def setupParameterShapes (size in_size : ℕ) : List (String × List ℕ) :=
  [("Wz", [size, in_size]), ("Wi", [size, in_size]),
   ("Wf", [size, in_size]), ("Wo", [size, in_size]),
   ("Wci", [size]), ("Wcf", [size]), ("Wco", [size]),
   ("Rz", [size, size]), ("Ri", [size, size]),
   ("Rf", [size, size]), ("Ro", [size, size]),
   ("bz", [size]), ("bi", [size]), ("bf", [size]), ("bo", [size])]

/-- Element count of one `BufferStructure` shape. -/
def shapeCount (dims : List ℕ) : ℕ := dims.foldl (· * ·) 1

/-- Total element count over all parameter tensors declared by `setup`. -/
def totalParamCount (size in_size : ℕ) : ℕ :=
  (setupParameterShapes size in_size).foldl (fun acc p => acc + shapeCount p.2) 0

/-! ## LSTM peephole cell: parameters, activations, forward pass

The cell is embedded generically over a commutative ring `α`; the numeric
backend's activation functions are abstracted as `Activation` pairs
(instantiated with the real sigmoid/tanh for the analytic theorems).  A
`(T, B, F)` tensor is a function `ℕ → Fin B → Fin F → α` over time slices. -/

/-- An activation function together with its derivative-given-output form:
the handler's `*_deriv(x, y, dy, dx)` operations compute `dx = dy * d(y)`
(e.g. `sigmoid_deriv` uses `d y = y * (1 - y)`, `tanh_deriv` uses
`d y = 1 - y * y`). -/
structure Activation (α : Type) where
  f : α → α
  d : α → α

/-- The parameter buffers of `LstmPeepholeLayerImpl` (in declaration order:
four input weight matrices, three peephole vectors, four recurrent weight
matrices, four biases).  Also reused as the container for the gradient
buffers `dWz … dbo`, which have the same shapes. -/
structure Params (α : Type) (n m : ℕ) where
  Wz : Fin n → Fin m → α
  Wi : Fin n → Fin m → α
  Wf : Fin n → Fin m → α
  Wo : Fin n → Fin m → α
  Wci : Fin n → α
  Wcf : Fin n → α
  Wco : Fin n → α
  Rz : Fin n → Fin n → α
  Ri : Fin n → Fin n → α
  Rf : Fin n → Fin n → α
  Ro : Fin n → Fin n → α
  bz : Fin n → α
  bi : Fin n → α
  bf : Fin n → α
  bo : Fin n → α

/-- The slice-`t` values of the output and of the ten forward internal
buffers `Za, Zb, Ia, Ib, Fa, Fb, Oa, Ob, Ca, Cb`. -/
structure Step (α : Type) (B n : ℕ) where
  za : Fin B → Fin n → α
  zb : Fin B → Fin n → α
  ia : Fin B → Fin n → α
  ib : Fin B → Fin n → α
  fa : Fin B → Fin n → α
  fb : Fin B → Fin n → α
  oa : Fin B → Fin n → α
  ob : Fin B → Fin n → α
  ca : Fin B → Fin n → α
  cb : Fin B → Fin n → α
  y : Fin B → Fin n → α

/-- One timestep of `forward_pass`, given the input slice `x` and the
previous output `yp` and cell state `cp` (`y[t-1]`, `Ca[t-1]`): the bulk
input terms `x · Wᵀ` (`dot_mm … transb=True`), the recurrent terms
`y[t-1] · R` (`dot_add_mm`), the peephole terms (`mult_add_mv` against
`Ca[t-1]` for the input/forget gates and against the new `Ca[t]` for the
output gate), the broadcast biases, and the gate nonlinearities (`sg` is the
handler's sigmoid, `g` the configured activation). -/
def forwardStep {α : Type} [CommRing α] {n m B : ℕ} (p : Params α n m)
    (g sg : Activation α) (x : Fin B → Fin m → α)
    (yp cp : Fin B → Fin n → α) : Step α B n :=
  let za := fun b k =>
    (∑ j, x b j * p.Wz k j) + (∑ j, yp b j * p.Rz j k) + p.bz k
  let zb := fun b k => g.f (za b k)
  let ia := fun b k =>
    (∑ j, x b j * p.Wi k j) + (∑ j, yp b j * p.Ri j k) +
      cp b k * p.Wci k + p.bi k
  let ib := fun b k => sg.f (ia b k)
  let fa := fun b k =>
    (∑ j, x b j * p.Wf k j) + (∑ j, yp b j * p.Rf j k) +
      cp b k * p.Wcf k + p.bf k
  let fb := fun b k => sg.f (fa b k)
  let ca := fun b k => ib b k * zb b k + fb b k * cp b k
  let oa := fun b k =>
    (∑ j, x b j * p.Wo k j) + (∑ j, yp b j * p.Ro j k) +
      ca b k * p.Wco k + p.bo k
  let ob := fun b k => sg.f (oa b k)
  let cb := fun b k => g.f (ca b k)
  ⟨za, zb, ia, ib, fa, fb, oa, ob, ca, cb, fun b k => ob b k * cb b k⟩

/-- The sequential walk of `forward_pass`: slice `t` of the output and
internal buffers, seeded at `t = 0` by the context slots `y0 = y[-1]`,
`c0 = Ca[-1]` (all-zero on the real network, where context slots are
zero-initialized at allocation and never written). -/
def forwardAt {α : Type} [CommRing α] {n m B : ℕ} (p : Params α n m)
    (g sg : Activation α) (x : ℕ → Fin B → Fin m → α)
    (y0 c0 : Fin B → Fin n → α) : ℕ → Step α B n
  | 0 => forwardStep p g sg (x 0) y0 c0
  | t + 1 => forwardStep p g sg (x (t + 1))
      (forwardAt p g sg x y0 c0 t).y (forwardAt p g sg x y0 c0 t).ca

/-- The `y[t-1]` read by timestep `t` (the context slot when `t = 0`). -/
def prevY {α : Type} [CommRing α] {n m B : ℕ} (p : Params α n m)
    (g sg : Activation α) (x : ℕ → Fin B → Fin m → α)
    (y0 c0 : Fin B → Fin n → α) : ℕ → Fin B → Fin n → α
  | 0 => y0
  | t + 1 => (forwardAt p g sg x y0 c0 t).y

/-- The `Ca[t-1]` read by timestep `t` (the context slot when `t = 0`). -/
def prevC {α : Type} [CommRing α] {n m B : ℕ} (p : Params α n m)
    (g sg : Activation α) (x : ℕ → Fin B → Fin m → α)
    (y0 c0 : Fin B → Fin n → α) : ℕ → Fin B → Fin n → α
  | 0 => c0
  | t + 1 => (forwardAt p g sg x y0 c0 t).ca

/-! ## LSTM peephole cell: backward pass -/

/-- The slice-`t` values of the backward-only internal buffers, plus the
slice of the scratch buffer `dy` (the accumulated output-side delta). -/
structure Deltas (α : Type) (B n : ℕ) where
  dy : Fin B → Fin n → α
  dCa : Fin B → Fin n → α
  dOa : Fin B → Fin n → α
  dOb : Fin B → Fin n → α
  dIa : Fin B → Fin n → α
  dIb : Fin B → Fin n → α
  dFa : Fin B → Fin n → α
  dFb : Fin B → Fin n → α
  dZa : Fin B → Fin n → α
  dZb : Fin B → Fin n → α
  dCb : Fin B → Fin n → α

/-- All-zero deltas: the values at slice `T` (the context slots of the
backward-only buffers, zero-initialized and never written, and the `dCa`
slice zeroed by `_h.fill(dCa, 0.0)`). -/
def zeroDeltas {α : Type} [CommRing α] {B n : ℕ} : Deltas α B n :=
  ⟨fun _ _ => 0, fun _ _ => 0, fun _ _ => 0, fun _ _ => 0, fun _ _ => 0,
   fun _ _ => 0, fun _ _ => 0, fun _ _ => 0, fun _ _ => 0, fun _ _ => 0,
   fun _ _ => 0⟩

/-- One iteration of the reverse loop of `backward_pass` at timestep `t`,
given the forward slice `s`, the previous cell state `cp = Ca[t-1]`, the
next forget activation `fbn = Fb[t+1]`, the already-computed deltas `next`
at `t+1`, and the external output delta slice `dl = deltas[t]`.  Mirrors the
source statement by statement: recurrent delta accumulation into `dy[t]`
(four `dot_add_mm … transb=True`), peephole pullbacks into `dCa[t]`, gate
deltas through `sigmoid_deriv`/`act_func_deriv` (derivative-given-output),
and the forgotten fraction `dCa[t+1] ⊙ Fb[t+1]`. -/
def backwardStep {α : Type} [CommRing α] {n m B : ℕ} (p : Params α n m)
    (g sg : Activation α) (s : Step α B n)
    (cp fbn : Fin B → Fin n → α) (next : Deltas α B n)
    (dl : Fin B → Fin n → α) : Deltas α B n :=
  let dy := fun b j => dl b j + (∑ k, next.dIa b k * p.Ri j k) +
    (∑ k, next.dFa b k * p.Rf j k) + (∑ k, next.dOa b k * p.Ro j k) +
    (∑ k, next.dZa b k * p.Rz j k)
  let dOb := fun b k => dy b k * s.cb b k
  let dOa := fun b k => dOb b k * sg.d (s.ob b k)
  let dCb := fun b k => (dy b k * s.ob b k) * g.d (s.cb b k)
  let dCa := fun b k => next.dIa b k * p.Wci k + next.dFa b k * p.Wcf k +
    dOa b k * p.Wco k + dCb b k + next.dCa b k * fbn b k
  let dFb := fun b k => dCa b k * cp b k
  let dFa := fun b k => dFb b k * sg.d (s.fb b k)
  let dIb := fun b k => dCa b k * s.zb b k
  let dIa := fun b k => dIb b k * sg.d (s.ib b k)
  let dZb := fun b k => dCa b k * s.ib b k
  let dZa := fun b k => dZb b k * g.d (s.zb b k)
  ⟨dy, dCa, dOa, dOb, dIa, dIb, dFa, dFb, dZa, dZb, dCb⟩

/-- The reverse walk `for t in range(time_size - 1, -1, -1)` of
`backward_pass`, counted from the sequence end: `backwardAt … T j` holds the
deltas of timestep `T - j`; `j = 0` is the all-zero slice-`T` boundary.
`Fb[t+1]` reads the forward value for `t + 1 < T` and the (zero) context
slot at `t + 1 = T`. -/
def backwardAt {α : Type} [CommRing α] {n m B : ℕ} (p : Params α n m)
    (g sg : Activation α) (x : ℕ → Fin B → Fin m → α)
    (y0 c0 : Fin B → Fin n → α) (dl : ℕ → Fin B → Fin n → α) (T : ℕ) :
    ℕ → Deltas α B n
  | 0 => zeroDeltas
  | j + 1 =>
      backwardStep p g sg (forwardAt p g sg x y0 c0 (T - (j + 1)))
        (prevC p g sg x y0 c0 (T - (j + 1)))
        (if T - (j + 1) + 1 < T
          then (forwardAt p g sg x y0 c0 (T - (j + 1) + 1)).fb
          else fun _ _ => 0)
        (backwardAt p g sg x y0 c0 dl T j) (dl (T - (j + 1)))

/-- The backward-pass deltas of timestep `t` (for `t < T`). -/
def deltaAt {α : Type} [CommRing α] {n m B : ℕ} (p : Params α n m)
    (g sg : Activation α) (x : ℕ → Fin B → Fin m → α)
    (y0 c0 : Fin B → Fin n → α) (dl : ℕ → Fin B → Fin n → α) (T t : ℕ) :
    Deltas α B n :=
  backwardAt p g sg x y0 c0 dl T (T - t)

/-- The trailing slice `dy[-1]` of the scratch buffer
`dy = _h.allocate(y.shape)`: fresh buffers are zero-filled and the reverse
loop writes only slices `0 … T-1`, so the recurrent-gradient boundary terms
read zeros here. -/
def dyContext {α : Type} [CommRing α] {n B : ℕ} : Fin B → Fin n → α :=
  fun _ _ => 0

/-- The trailing slice `dCa[-1]` of the `dCa` buffer: zeroed by
`_h.fill(dCa, 0.0)` and never written by the reverse loop, so the
peephole-gradient boundary terms read zeros here. -/
def dCaContext {α : Type} [CommRing α] {n B : ℕ} : Fin B → Fin n → α :=
  fun _ _ => 0

/-- The gradient increments that one `backward_pass` call accumulates into
the parameter-gradient buffers `dWz … dbo` (gradients add into their
destination, so the increment is what one call contributes): the flattened
time×batch contractions of the second aggregation phase, including the
shifted slices `Ca[:-2]`/`dIa[1:-1]`/… and the boundary-correction terms at
the sequence start (which for `dRz…dRo` read the zero `dy[-1]` slice, and
for `dWci`/`dWcf` read the zero `dCa[-1]` slice — both against `dIa[0]`, as
in the source). -/
def backward_gradients {α : Type} [CommRing α] {n m B : ℕ}
    (p : Params α n m) (g sg : Activation α)
    (x : ℕ → Fin B → Fin m → α) (y0 c0 : Fin B → Fin n → α)
    (dl : ℕ → Fin B → Fin n → α) (T : ℕ) : Params α n m :=
  let D := fun t => deltaAt p g sg x y0 c0 dl T t
  let S := fun t => forwardAt p g sg x y0 c0 t
  { Wz := fun k j => ∑ t ∈ Finset.range T, ∑ b, (D t).dZa b k * x t b j
    Wi := fun k j => ∑ t ∈ Finset.range T, ∑ b, (D t).dIa b k * x t b j
    Wf := fun k j => ∑ t ∈ Finset.range T, ∑ b, (D t).dFa b k * x t b j
    Wo := fun k j => ∑ t ∈ Finset.range T, ∑ b, (D t).dOa b k * x t b j
    Wci := fun k =>
      (∑ t ∈ Finset.Ico 1 T, ∑ b,
        prevC p g sg x y0 c0 t b k * (D t).dIa b k) +
      ∑ b, dCaContext b k * (D 0).dIa b k
    Wcf := fun k =>
      (∑ t ∈ Finset.Ico 1 T, ∑ b,
        prevC p g sg x y0 c0 t b k * (D t).dFa b k) +
      ∑ b, dCaContext b k * (D 0).dIa b k
    Wco := fun k => ∑ t ∈ Finset.range T, ∑ b, (S t).ca b k * (D t).dOa b k
    Rz := fun j k =>
      (∑ t ∈ Finset.Ico 1 T, ∑ b,
        prevY p g sg x y0 c0 t b j * (D t).dZa b k) +
      ∑ b, dyContext b j * (D 0).dZa b k
    Ri := fun j k =>
      (∑ t ∈ Finset.Ico 1 T, ∑ b,
        prevY p g sg x y0 c0 t b j * (D t).dIa b k) +
      ∑ b, dyContext b j * (D 0).dIa b k
    Rf := fun j k =>
      (∑ t ∈ Finset.Ico 1 T, ∑ b,
        prevY p g sg x y0 c0 t b j * (D t).dFa b k) +
      ∑ b, dyContext b j * (D 0).dFa b k
    Ro := fun j k =>
      (∑ t ∈ Finset.Ico 1 T, ∑ b,
        prevY p g sg x y0 c0 t b j * (D t).dOa b k) +
      ∑ b, dyContext b j * (D 0).dOa b k
    bz := fun k => ∑ t ∈ Finset.range T, ∑ b, (D t).dZa b k
    bi := fun k => ∑ t ∈ Finset.range T, ∑ b, (D t).dIa b k
    bf := fun k => ∑ t ∈ Finset.range T, ∑ b, (D t).dFa b k
    bo := fun k => ∑ t ∈ Finset.range T, ∑ b, (D t).dOa b k }

/-- The input-delta increments accumulated into `dx` by `backward_pass`
(`dot_add_mm(flat_dIa, Wi, flat_dinputs)` and friends). -/
def backward_input_deltas {α : Type} [CommRing α] {n m B : ℕ}
    (p : Params α n m) (g sg : Activation α)
    (x : ℕ → Fin B → Fin m → α) (y0 c0 : Fin B → Fin n → α)
    (dl : ℕ → Fin B → Fin n → α) (T : ℕ) : ℕ → Fin B → Fin m → α :=
  fun t b j =>
    (∑ k, (deltaAt p g sg x y0 c0 dl T t).dIa b k * p.Wi k j) +
    (∑ k, (deltaAt p g sg x y0 c0 dl T t).dFa b k * p.Wf k j) +
    (∑ k, (deltaAt p g sg x y0 c0 dl T t).dOa b k * p.Wo k j) +
    (∑ k, (deltaAt p g sg x y0 c0 dl T t).dZa b k * p.Wz k j)

/-! ## LSTM peephole cell: the full buffer set and `forward_pass` -/

/-- A `(T, B, size)` buffer with `context_size = 1`: the main time slices and
the extra context slice at index `-1`. -/
structure BufferTS (α : Type) (B n : ℕ) where
  main : ℕ → Fin B → Fin n → α
  ctx : Fin B → Fin n → α

/-- The buffer set handed to `forward_pass`/`backward_pass`: inputs, outputs,
deltas, parameters, gradients, and the twenty internal buffers. -/
structure Buffers (α : Type) (n m B : ℕ) where
  inputs : ℕ → Fin B → Fin m → α
  outputs : BufferTS α B n
  parameters : Params α n m
  gradients : Params α n m
  input_deltas : ℕ → Fin B → Fin m → α
  output_deltas : ℕ → Fin B → Fin n → α
  Za : BufferTS α B n
  Zb : BufferTS α B n
  Ia : BufferTS α B n
  Ib : BufferTS α B n
  Fa : BufferTS α B n
  Fb : BufferTS α B n
  Oa : BufferTS α B n
  Ob : BufferTS α B n
  Ca : BufferTS α B n
  Cb : BufferTS α B n
  dZa : BufferTS α B n
  dZb : BufferTS α B n
  dIa : BufferTS α B n
  dIb : BufferTS α B n
  dFa : BufferTS α B n
  dFb : BufferTS α B n
  dOa : BufferTS α B n
  dOb : BufferTS α B n
  dCa : BufferTS α B n
  dCb : BufferTS α B n

/-- Overwrite the first `T` time slices of a buffer, leaving later slices and
the context slice as they were. -/
def writeSlices {α : Type} {B n : ℕ} (T : ℕ) (old : BufferTS α B n)
    (f : ℕ → Fin B → Fin n → α) : BufferTS α B n :=
  ⟨fun t => if t < T then f t else old.main t, old.ctx⟩

/-- `LstmPeepholeLayerImpl.forward_pass` over a whole buffer set: seeds the
recurrence from the output and cell-state context slots (`y[-1]`, `Ca[-1]`)
and writes slices `0 … T-1` of the output buffer and of the ten forward
internal buffers; every other buffer is carried over untouched. -/
def forward_pass {α : Type} [CommRing α] {n m B : ℕ} (g sg : Activation α)
    (T : ℕ) (buf : Buffers α n m B) : Buffers α n m B :=
  let S := fun t =>
    forwardAt buf.parameters g sg buf.inputs buf.outputs.ctx buf.Ca.ctx t
  { buf with
    outputs := writeSlices T buf.outputs (fun t => (S t).y)
    Za := writeSlices T buf.Za (fun t => (S t).za)
    Zb := writeSlices T buf.Zb (fun t => (S t).zb)
    Ia := writeSlices T buf.Ia (fun t => (S t).ia)
    Ib := writeSlices T buf.Ib (fun t => (S t).ib)
    Fa := writeSlices T buf.Fa (fun t => (S t).fa)
    Fb := writeSlices T buf.Fb (fun t => (S t).fb)
    Oa := writeSlices T buf.Oa (fun t => (S t).oa)
    Ob := writeSlices T buf.Ob (fun t => (S t).ob)
    Ca := writeSlices T buf.Ca (fun t => (S t).ca)
    Cb := writeSlices T buf.Cb (fun t => (S t).cb) }


/-! ## Gradient correctness: tangent (forward-mode) recursion

To relate the reverse accumulation of `backward_pass` to the mathematical
derivative of the forward function, we set up the directional (tangent)
recursion of the forward pass along a one-parameter family of parameters and
inputs.  The family's direction enters each gate pre-activation through an
explicit injection term; the recursion then mirrors the chain rule through
one `forwardStep`. -/

/-- The direct (non-recurrent) derivative injections into the four gate
pre-activations at one timestep. -/
structure Inj (α : Type) (B n : ℕ) where
  jza : Fin B → Fin n → α
  jia : Fin B → Fin n → α
  jfa : Fin B → Fin n → α
  joa : Fin B → Fin n → α

/-- The directional derivatives of one `forwardStep`'s quantities. -/
structure TStep (α : Type) (B n : ℕ) where
  zadot : Fin B → Fin n → α
  iadot : Fin B → Fin n → α
  fadot : Fin B → Fin n → α
  oadot : Fin B → Fin n → α
  cdot : Fin B → Fin n → α
  ydot : Fin B → Fin n → α

/-- Chain rule through one `forwardStep`: given the forward slice `s`, the
previous cell state `cp`, the injections, and the incoming tangents
`ydp, cdp` of the previous output and cell state. -/
def tangentStep {α : Type} [CommRing α] {n m B : ℕ} (p : Params α n m)
    (g sg : Activation α) (s : Step α B n) (cp : Fin B → Fin n → α)
    (inj : Inj α B n) (ydp cdp : Fin B → Fin n → α) : TStep α B n :=
  let zadot := fun b k => inj.jza b k + ∑ j, ydp b j * p.Rz j k
  let iadot := fun b k =>
    inj.jia b k + (∑ j, ydp b j * p.Ri j k) + cdp b k * p.Wci k
  let fadot := fun b k =>
    inj.jfa b k + (∑ j, ydp b j * p.Rf j k) + cdp b k * p.Wcf k
  let cdot := fun b k =>
    (iadot b k * sg.d (s.ib b k)) * s.zb b k +
      s.ib b k * (zadot b k * g.d (s.zb b k)) +
      (fadot b k * sg.d (s.fb b k)) * cp b k + s.fb b k * cdp b k
  let oadot := fun b k =>
    inj.joa b k + (∑ j, ydp b j * p.Ro j k) + cdot b k * p.Wco k
  let ydot := fun b k =>
    (oadot b k * sg.d (s.ob b k)) * s.cb b k +
      s.ob b k * (g.d (s.cb b k) * cdot b k)
  ⟨zadot, iadot, fadot, oadot, cdot, ydot⟩

/-- The tangent recursion along the sequence (the context seeds are constants
along the family, so the incoming tangents at `t = 0` are zero). -/
def tangentAt {α : Type} [CommRing α] {n m B : ℕ} (p : Params α n m)
    (g sg : Activation α) (x : ℕ → Fin B → Fin m → α)
    (y0 c0 : Fin B → Fin n → α) (inj : ℕ → Inj α B n) : ℕ → TStep α B n
  | 0 => tangentStep p g sg (forwardAt p g sg x y0 c0 0)
      (prevC p g sg x y0 c0 0) (inj 0) (fun _ _ => 0) (fun _ _ => 0)
  | t + 1 => tangentStep p g sg (forwardAt p g sg x y0 c0 (t + 1))
      (prevC p g sg x y0 c0 (t + 1)) (inj (t + 1))
      (tangentAt p g sg x y0 c0 inj t).ydot
      (tangentAt p g sg x y0 c0 inj t).cdot

/-- The incoming output tangent of timestep `t` (zero at `t = 0`). -/
def ydotPrev {α : Type} [CommRing α] {n m B : ℕ} (p : Params α n m)
    (g sg : Activation α) (x : ℕ → Fin B → Fin m → α)
    (y0 c0 : Fin B → Fin n → α) (inj : ℕ → Inj α B n) :
    ℕ → Fin B → Fin n → α
  | 0 => fun _ _ => 0
  | t + 1 => (tangentAt p g sg x y0 c0 inj t).ydot

/-- The incoming cell tangent of timestep `t` (zero at `t = 0`). -/
def cdotPrev {α : Type} [CommRing α] {n m B : ℕ} (p : Params α n m)
    (g sg : Activation α) (x : ℕ → Fin B → Fin m → α)
    (y0 c0 : Fin B → Fin n → α) (inj : ℕ → Inj α B n) :
    ℕ → Fin B → Fin n → α
  | 0 => fun _ _ => 0
  | t + 1 => (tangentAt p g sg x y0 c0 inj t).cdot

/-- The injections induced by a direction `u` over all parameters together
with a direction `ux` over all input elements. -/
def injOf {α : Type} [CommRing α] {n m B : ℕ} (p : Params α n m)
    (g sg : Activation α) (x : ℕ → Fin B → Fin m → α)
    (y0 c0 : Fin B → Fin n → α) (u : Params α n m)
    (ux : ℕ → Fin B → Fin m → α) : ℕ → Inj α B n := fun t =>
  { jza := fun b k => (∑ j, ux t b j * p.Wz k j) + (∑ j, x t b j * u.Wz k j) +
      (∑ j, prevY p g sg x y0 c0 t b j * u.Rz j k) + u.bz k
    jia := fun b k => (∑ j, ux t b j * p.Wi k j) + (∑ j, x t b j * u.Wi k j) +
      (∑ j, prevY p g sg x y0 c0 t b j * u.Ri j k) +
      prevC p g sg x y0 c0 t b k * u.Wci k + u.bi k
    jfa := fun b k => (∑ j, ux t b j * p.Wf k j) + (∑ j, x t b j * u.Wf k j) +
      (∑ j, prevY p g sg x y0 c0 t b j * u.Rf j k) +
      prevC p g sg x y0 c0 t b k * u.Wcf k + u.bf k
    joa := fun b k => (∑ j, ux t b j * p.Wo k j) + (∑ j, x t b j * u.Wo k j) +
      (∑ j, prevY p g sg x y0 c0 t b j * u.Ro j k) +
      (forwardAt p g sg x y0 c0 t).ca b k * u.Wco k + u.bo k }

/-! ## Gradient correctness: auxiliary bilinear forms -/

/-- The inner product of two time slices. -/
def inn {α : Type} [CommRing α] {B n : ℕ} (u v : Fin B → Fin n → α) : α :=
  ∑ b, ∑ k, u b k * v b k

/-- The recurrent pullback `dIa·Riᵀ + dFa·Rfᵀ + dOa·Roᵀ + dZa·Rzᵀ` that one
reverse-loop iteration adds into `dy` (the cotangent of the previous
output). -/
def recPull {α : Type} [CommRing α] {n m B : ℕ} (p : Params α n m)
    (d : Deltas α B n) : Fin B → Fin n → α := fun b j =>
  (∑ k, d.dIa b k * p.Ri j k) + (∑ k, d.dFa b k * p.Rf j k) +
    (∑ k, d.dOa b k * p.Ro j k) + (∑ k, d.dZa b k * p.Rz j k)

/-- The cotangent of the previous cell state contributed by one timestep:
peephole pullbacks plus the forgotten fraction. -/
def cellPull {α : Type} [CommRing α] {n m B : ℕ} (p : Params α n m)
    (fb : Fin B → Fin n → α) (d : Deltas α B n) : Fin B → Fin n → α :=
  fun b k => d.dIa b k * p.Wci k + d.dFa b k * p.Wcf k + d.dCa b k * fb b k

/-- The injection contraction of one timestep: each gate delta against its
own injection. -/
def injContract {α : Type} [CommRing α] {B n : ℕ} (d : Deltas α B n)
    (inj : Inj α B n) : α :=
  inn d.dZa inj.jza + inn d.dIa inj.jia + inn d.dFa inj.jfa + inn d.dOa inj.joa

/-- The full inner product of two parameter sets (gradient against
direction), summing over every scalar weight. -/
def paramInner {α : Type} [CommRing α] {n m : ℕ} (a b : Params α n m) : α :=
  (∑ k, ∑ j, a.Wz k j * b.Wz k j) + (∑ k, ∑ j, a.Wi k j * b.Wi k j) +
  (∑ k, ∑ j, a.Wf k j * b.Wf k j) + (∑ k, ∑ j, a.Wo k j * b.Wo k j) +
  (∑ k, a.Wci k * b.Wci k) + (∑ k, a.Wcf k * b.Wcf k) +
  (∑ k, a.Wco k * b.Wco k) +
  (∑ j, ∑ k, a.Rz j k * b.Rz j k) + (∑ j, ∑ k, a.Ri j k * b.Ri j k) +
  (∑ j, ∑ k, a.Rf j k * b.Rf j k) + (∑ j, ∑ k, a.Ro j k * b.Ro j k) +
  (∑ k, a.bz k * b.bz k) + (∑ k, a.bi k * b.bi k) +
  (∑ k, a.bf k * b.bf k) + (∑ k, a.bo k * b.bo k)

/-- The loss functional whose gradient `backward_pass` computes: the output
sequence contracted against the externally supplied output deltas. -/
def lossAt {α : Type} [CommRing α] {n m B : ℕ} (p : Params α n m)
    (g sg : Activation α) (x : ℕ → Fin B → Fin m → α)
    (dl : ℕ → Fin B → Fin n → α) (T : ℕ) : α :=
  ∑ t ∈ Finset.range T, inn (dl t)
    (forwardAt p g sg x (fun _ _ => 0) (fun _ _ => 0) t).y

/-! ## Real activations and derivative bundles

The numeric backend's activation functions over `ℝ`, with the
derivative-given-output forms implemented by the handler's
`sigmoid_deriv`/`tanh_deriv`/`rel_deriv` and the `linear` copy. -/

/-- The backend sigmoid `1 / (1 + exp (-x))` with `d y = y * (1 - y)`. -/
noncomputable def sigmoidAct : Activation ℝ :=
  ⟨fun v => (1 + Real.exp (-v))⁻¹, fun y => y * (1 - y)⟩

/-- The backend tanh with `d y = 1 - y * y`. -/
noncomputable def tanhAct : Activation ℝ :=
  ⟨Real.tanh, fun y => 1 - y * y⟩

/-- The `linear` activation: identity forward, identity delta copy. -/
def linearAct (α : Type) [CommRing α] : Activation α :=
  ⟨fun v => v, fun _ => 1⟩

/-- The `rel` rectified-linear activation with `d y = (y > 0)`. -/
noncomputable def relAct : Activation ℝ :=
  ⟨fun v => max v 0, fun y => if 0 < y then 1 else 0⟩

/-- An activation is differentiable everywhere with exactly the derivative
its derivative-given-output form reports.  Holds for sigmoid, tanh and
linear; fails for rel at the kink. -/
def Activation.Valid (a : Activation ℝ) : Prop :=
  ∀ v : ℝ, HasDerivAt a.f (a.d (a.f v)) v

/-- A one-parameter family of parameter sets, differentiable at `v0` with
componentwise derivative `u`. -/
structure HasParamsDerivAt {n m : ℕ} (P : ℝ → Params ℝ n m)
    (u : Params ℝ n m) (v0 : ℝ) : Prop where
  hWz : ∀ k j, HasDerivAt (fun w => (P w).Wz k j) (u.Wz k j) v0
  hWi : ∀ k j, HasDerivAt (fun w => (P w).Wi k j) (u.Wi k j) v0
  hWf : ∀ k j, HasDerivAt (fun w => (P w).Wf k j) (u.Wf k j) v0
  hWo : ∀ k j, HasDerivAt (fun w => (P w).Wo k j) (u.Wo k j) v0
  hWci : ∀ k, HasDerivAt (fun w => (P w).Wci k) (u.Wci k) v0
  hWcf : ∀ k, HasDerivAt (fun w => (P w).Wcf k) (u.Wcf k) v0
  hWco : ∀ k, HasDerivAt (fun w => (P w).Wco k) (u.Wco k) v0
  hRz : ∀ j k, HasDerivAt (fun w => (P w).Rz j k) (u.Rz j k) v0
  hRi : ∀ j k, HasDerivAt (fun w => (P w).Ri j k) (u.Ri j k) v0
  hRf : ∀ j k, HasDerivAt (fun w => (P w).Rf j k) (u.Rf j k) v0
  hRo : ∀ j k, HasDerivAt (fun w => (P w).Ro j k) (u.Ro j k) v0
  hbz : ∀ k, HasDerivAt (fun w => (P w).bz k) (u.bz k) v0
  hbi : ∀ k, HasDerivAt (fun w => (P w).bi k) (u.bi k) v0
  hbf : ∀ k, HasDerivAt (fun w => (P w).bf k) (u.bf k) v0
  hbo : ∀ k, HasDerivAt (fun w => (P w).bo k) (u.bo k) v0

/-- A one-parameter family of input tensors, differentiable at `v0` with
componentwise derivative `ux`. -/
def HasInputDerivAt {m B : ℕ} (X : ℝ → ℕ → Fin B → Fin m → ℝ)
    (ux : ℕ → Fin B → Fin m → ℝ) (v0 : ℝ) : Prop :=
  ∀ t b j, HasDerivAt (fun w => X w t b j) (ux t b j) v0

/-! ## Scalar coordinates of the parameter and input tensors -/

/-- One scalar coordinate among the fifteen parameter tensors or the input
tensor. -/
inductive Coord (n m B : ℕ) where
  | cWz (k : Fin n) (j : Fin m) : Coord n m B
  | cWi (k : Fin n) (j : Fin m) : Coord n m B
  | cWf (k : Fin n) (j : Fin m) : Coord n m B
  | cWo (k : Fin n) (j : Fin m) : Coord n m B
  | cWci (k : Fin n) : Coord n m B
  | cWcf (k : Fin n) : Coord n m B
  | cWco (k : Fin n) : Coord n m B
  | cRz (j k : Fin n) : Coord n m B
  | cRi (j k : Fin n) : Coord n m B
  | cRf (j k : Fin n) : Coord n m B
  | cRo (j k : Fin n) : Coord n m B
  | cbz (k : Fin n) : Coord n m B
  | cbi (k : Fin n) : Coord n m B
  | cbf (k : Fin n) : Coord n m B
  | cbo (k : Fin n) : Coord n m B
  | cx (t : ℕ) (b : Fin B) (j : Fin m) : Coord n m B

/-- Overwrite the single scalar parameter named by a coordinate (input
coordinates leave the parameters unchanged). -/
def updateParams {α : Type} [CommRing α] {n m B : ℕ} (p : Params α n m)
    (c : Coord n m B) (v : α) : Params α n m :=
  match c with
  | .cWz k0 j0 => { p with Wz := fun k j => if k = k0 ∧ j = j0 then v else p.Wz k j }
  | .cWi k0 j0 => { p with Wi := fun k j => if k = k0 ∧ j = j0 then v else p.Wi k j }
  | .cWf k0 j0 => { p with Wf := fun k j => if k = k0 ∧ j = j0 then v else p.Wf k j }
  | .cWo k0 j0 => { p with Wo := fun k j => if k = k0 ∧ j = j0 then v else p.Wo k j }
  | .cWci k0 => { p with Wci := fun k => if k = k0 then v else p.Wci k }
  | .cWcf k0 => { p with Wcf := fun k => if k = k0 then v else p.Wcf k }
  | .cWco k0 => { p with Wco := fun k => if k = k0 then v else p.Wco k }
  | .cRz j0 k0 => { p with Rz := fun j k => if j = j0 ∧ k = k0 then v else p.Rz j k }
  | .cRi j0 k0 => { p with Ri := fun j k => if j = j0 ∧ k = k0 then v else p.Ri j k }
  | .cRf j0 k0 => { p with Rf := fun j k => if j = j0 ∧ k = k0 then v else p.Rf j k }
  | .cRo j0 k0 => { p with Ro := fun j k => if j = j0 ∧ k = k0 then v else p.Ro j k }
  | .cbz k0 => { p with bz := fun k => if k = k0 then v else p.bz k }
  | .cbi k0 => { p with bi := fun k => if k = k0 then v else p.bi k }
  | .cbf k0 => { p with bf := fun k => if k = k0 then v else p.bf k }
  | .cbo k0 => { p with bo := fun k => if k = k0 then v else p.bo k }
  | .cx _ _ _ => p

/-- Overwrite the single input element named by a coordinate (parameter
coordinates leave the inputs unchanged). -/
def updateInput {α : Type} [CommRing α] {n m B : ℕ}
    (x : ℕ → Fin B → Fin m → α) (c : Coord n m B) (v : α) :
    ℕ → Fin B → Fin m → α :=
  match c with
  | .cx t0 b0 j0 =>
      fun t b j => if t = t0 ∧ b = b0 ∧ j = j0 then v else x t b j
  | _ => x

/-- Read the scalar value a coordinate names. -/
def readCoord {α : Type} [CommRing α] {n m B : ℕ} (p : Params α n m)
    (x : ℕ → Fin B → Fin m → α) (c : Coord n m B) : α :=
  match c with
  | .cWz k j => p.Wz k j
  | .cWi k j => p.Wi k j
  | .cWf k j => p.Wf k j
  | .cWo k j => p.Wo k j
  | .cWci k => p.Wci k
  | .cWcf k => p.Wcf k
  | .cWco k => p.Wco k
  | .cRz j k => p.Rz j k
  | .cRi j k => p.Ri j k
  | .cRf j k => p.Rf j k
  | .cRo j k => p.Ro j k
  | .cbz k => p.bz k
  | .cbi k => p.bi k
  | .cbf k => p.bf k
  | .cbo k => p.bo k
  | .cx t b j => x t b j

/-- The all-zero parameter set. -/
def zeroParams {α : Type} [CommRing α] {n m : ℕ} : Params α n m :=
  ⟨fun _ _ => 0, fun _ _ => 0, fun _ _ => 0, fun _ _ => 0,
   fun _ => 0, fun _ => 0, fun _ => 0,
   fun _ _ => 0, fun _ _ => 0, fun _ _ => 0, fun _ _ => 0,
   fun _ => 0, fun _ => 0, fun _ => 0, fun _ => 0⟩

/-- The indicator direction of a coordinate over the parameter tensors. -/
def coordDirParams {α : Type} [CommRing α] {n m B : ℕ} (c : Coord n m B) :
    Params α n m :=
  match c with
  | .cWz k0 j0 => { zeroParams with Wz := fun k j => if k = k0 ∧ j = j0 then 1 else 0 }
  | .cWi k0 j0 => { zeroParams with Wi := fun k j => if k = k0 ∧ j = j0 then 1 else 0 }
  | .cWf k0 j0 => { zeroParams with Wf := fun k j => if k = k0 ∧ j = j0 then 1 else 0 }
  | .cWo k0 j0 => { zeroParams with Wo := fun k j => if k = k0 ∧ j = j0 then 1 else 0 }
  | .cWci k0 => { zeroParams with Wci := fun k => if k = k0 then 1 else 0 }
  | .cWcf k0 => { zeroParams with Wcf := fun k => if k = k0 then 1 else 0 }
  | .cWco k0 => { zeroParams with Wco := fun k => if k = k0 then 1 else 0 }
  | .cRz j0 k0 => { zeroParams with Rz := fun j k => if j = j0 ∧ k = k0 then 1 else 0 }
  | .cRi j0 k0 => { zeroParams with Ri := fun j k => if j = j0 ∧ k = k0 then 1 else 0 }
  | .cRf j0 k0 => { zeroParams with Rf := fun j k => if j = j0 ∧ k = k0 then 1 else 0 }
  | .cRo j0 k0 => { zeroParams with Ro := fun j k => if j = j0 ∧ k = k0 then 1 else 0 }
  | .cbz k0 => { zeroParams with bz := fun k => if k = k0 then 1 else 0 }
  | .cbi k0 => { zeroParams with bi := fun k => if k = k0 then 1 else 0 }
  | .cbf k0 => { zeroParams with bf := fun k => if k = k0 then 1 else 0 }
  | .cbo k0 => { zeroParams with bo := fun k => if k = k0 then 1 else 0 }
  | .cx _ _ _ => zeroParams

/-- The indicator direction of a coordinate over the input tensor. -/
def coordDirInput {α : Type} [CommRing α] {n m B : ℕ} (c : Coord n m B) :
    ℕ → Fin B → Fin m → α :=
  match c with
  | .cx t0 b0 j0 =>
      fun t b j => if t = t0 ∧ b = b0 ∧ j = j0 then 1 else 0
  | _ => fun _ _ _ => 0

/-- Look up the gradient entry a coordinate names, among the parameter
gradient increments and the input-delta increments. -/
def gradCoord {α : Type} [CommRing α] {n m B : ℕ} (gr : Params α n m)
    (dxs : ℕ → Fin B → Fin m → α) (c : Coord n m B) : α :=
  match c with
  | .cWz k j => gr.Wz k j
  | .cWi k j => gr.Wi k j
  | .cWf k j => gr.Wf k j
  | .cWo k j => gr.Wo k j
  | .cWci k => gr.Wci k
  | .cWcf k => gr.Wcf k
  | .cWco k => gr.Wco k
  | .cRz j k => gr.Rz j k
  | .cRi j k => gr.Ri j k
  | .cRf j k => gr.Rf j k
  | .cRo j k => gr.Ro j k
  | .cbz k => gr.bz k
  | .cbi k => gr.bi k
  | .cbf k => gr.bf k
  | .cbo k => gr.bo k
  | .cx t b j => dxs t b j

/-- An input coordinate must name a timestep inside the sequence. -/
def coordInRange {n m B : ℕ} (c : Coord n m B) (T : ℕ) : Prop :=
  match c with
  | .cx t _ _ => t < T
  | _ => True

/-! # Theorems -/

/-! ## Hook dispatch -/

/-- C6: a hook is invoked by a dispatch exactly when the dispatch's timescale
equals the hook's timescale and the relevant counter (epoch number for
`epoch`, update number for `update`) is divisible by the hook's interval; in
particular a hook with `interval = 2, timescale = update` fires on update
counts 2, 4, 6, 8, 10 and never on odd counts over a sequence of 10
updates. -/
theorem invoked_iff_timescale_and_interval (hooks : List Hook) (ts : Timescale)
    (e u : ℕ) (h : Hook) (c : ℕ) (hc1 : 1 ≤ c) (hc2 : c ≤ 10) :
    (h ∈ invokedHooks hooks ts e u ↔
      h ∈ hooks ∧ h.timescale = ts ∧ emitCount ts e u % h.interval = 0) ∧
    (everySecondUpdateHook ∈ invokedHooks [everySecondUpdateHook] .update e c ↔
      c ∈ ({2, 4, 6, 8, 10} : Finset ℕ)) := by
  constructor
  · simp only [invokedHooks, List.mem_filter, hookFires, Bool.and_eq_true,
      beq_iff_eq, decide_eq_true_eq, and_assoc]
  · simp [invokedHooks, hookFires, everySecondUpdateHook, emitCount]
    omega

/-- Witness for C6 at a concrete dispatch: update count 4 with interval 2. -/
theorem invoked_iff_timescale_and_interval_witness :
    (everySecondUpdateHook ∈
        invokedHooks [everySecondUpdateHook] .update 1 4 ↔
      everySecondUpdateHook ∈ [everySecondUpdateHook] ∧
        everySecondUpdateHook.timescale = .update ∧
        emitCount .update 1 4 % everySecondUpdateHook.interval = 0) ∧
    (everySecondUpdateHook ∈ invokedHooks [everySecondUpdateHook] .update 1 4 ↔
      4 ∈ ({2, 4, 6, 8, 10} : Finset ℕ)) :=
  invoked_iff_timescale_and_interval [everySecondUpdateHook] .update 1 4
    everySecondUpdateHook 4 (by decide) (by decide)

/-! ## Baseline hook dispatches in `train` -/

/-- C7 counterexample: when the epoch-timescale baseline dispatch signals
stop, `train` returns before the update-timescale baseline dispatch is ever
run (Python's `or` short-circuits), so the claimed "one dispatch of the
update-timescale hooks occurs before any training step" fails on this run. -/
theorem train_stop_skips_update_baseline :
    TrainEv.dispatch .update 0 0 ∉ train [stopAtOnceHook] 3 5 ∧
    train [stopAtOnceHook] 3 5 = [TrainEv.dispatch .epoch 0 0] := by
  constructor
  · decide
  · decide

/-- C7 (amended): in every call to `train`, the epoch-timescale baseline
dispatch occurs first; the update-timescale baseline dispatch occurs right
after it unless the epoch baseline signalled stop; both baselines precede any
training step; and if either baseline dispatch signals stop, training returns
at once — no epoch counter increment, no optimization step, and no further
hook dispatch ever occurs. -/
theorem train_baseline_dispatches (hooks : List Hook) (batches fuel : ℕ) :
    (train hooks batches fuel).take 1 = [TrainEv.dispatch .epoch 0 0] ∧
    (emitStop hooks .epoch 0 0 = false →
      (train hooks batches fuel).take 2 =
        [TrainEv.dispatch .epoch 0 0, TrainEv.dispatch .update 0 0]) ∧
    (emitStop hooks .epoch 0 0 = true →
      train hooks batches fuel = [TrainEv.dispatch .epoch 0 0]) ∧
    (emitStop hooks .epoch 0 0 = false → emitStop hooks .update 0 0 = true →
      train hooks batches fuel =
        [TrainEv.dispatch .epoch 0 0, TrainEv.dispatch .update 0 0]) ∧
    ((emitStop hooks .epoch 0 0 || emitStop hooks .update 0 0) = true →
      ∀ n, TrainEv.step n ∉ train hooks batches fuel ∧
        TrainEv.epochStart n ∉ train hooks batches fuel) := by
  by_cases he : emitStop hooks .epoch 0 0
  · refine ⟨by simp [train, he], by simp [he], by simp [train, he],
      by simp [he], ?_⟩
    intro _ n
    simp [train, he]
  · by_cases hu : emitStop hooks .update 0 0
    · refine ⟨by simp [train, he, hu], by simp [train, he, hu],
        by simp [he], by simp [train, he, hu], ?_⟩
      intro _ n
      simp [train, he, hu]
    · refine ⟨by simp [train, he, hu], by simp [train, he, hu],
        by simp [he], by simp [hu], ?_⟩
      intro hcontra
      simp [he, hu] at hcontra

/-- Witness for C7 (amended): the epoch-stop hook ends training with only the
epoch baseline dispatch in the trace. -/
theorem train_baseline_dispatches_witness :
    train [stopAtOnceHook] 3 5 = [TrainEv.dispatch .epoch 0 0] ∧
    TrainEv.step 1 ∉ train [stopAtOnceHook] 3 5 :=
  ⟨(train_baseline_dispatches [stopAtOnceHook] 3 5).2.2.1 (by decide),
   ((train_baseline_dispatches [stopAtOnceHook] 3 5).2.2.2.2 (by decide) 1).1⟩

/-! ## Log accumulation -/

/-- Dict assignment leaves the value found under the assigned key. -/
theorem lookup_setLog_self {α : Type} (name : String) (e : LogEntry α)
    (logs : Logs α) :
    List.lookup name (setLog name e logs) = some e := by
  induction logs with
  | nil => simp [setLog, List.lookup]
  | cons hd tl ih =>
      obtain ⟨k, v⟩ := hd
      by_cases h : k = name
      · subst h; simp [setLog, List.lookup]
      · simp only [setLog, if_neg h, List.lookup]
        rw [beq_false_of_ne (Ne.symm h)]
        exact ih

/-- Dict assignment leaves every other key's value unchanged. -/
theorem lookup_setLog_ne {α : Type} {k name : String} (hk : k ≠ name)
    (e : LogEntry α) (logs : Logs α) :
    List.lookup k (setLog name e logs) = List.lookup k logs := by
  induction logs with
  | nil =>
      simp only [setLog, List.lookup]
      rw [beq_false_of_ne hk]
  | cons hd tl ih =>
      obtain ⟨k', v⟩ := hd
      by_cases h : k' = name
      · subst h
        simp only [setLog, if_pos rfl, List.lookup]
        rw [beq_false_of_ne hk]
      · simp only [setLog, if_neg h, List.lookup, ih]

/-- C8 (amended): a hook's non-`None` successful return value is merged into
the logs under the hook's name: a scalar is appended to the list stored under
the name (an empty list being created if the name is absent); a mapping
recurses key-wise into the nested log mapping under the name when the name is
absent (an empty mapping being created) or already holds a mapping, while
over a name holding a scalar list a mapping merge succeeds only when it is
empty, as a no-op that keeps the list; entries at all other keys are
preserved. -/
theorem add_log_merge_rule {α : Type} (name : String) (val : HookVal α)
    (logs r : Logs α) (hr : addLog name val logs = some r) :
    (∀ k, k ≠ name → List.lookup k r = List.lookup k logs) ∧
    (∀ a, val = .scalar a →
      List.lookup name r = some (.seq
        ((match List.lookup name logs with
          | some (.seq l) => l
          | _ => []) ++ [a]))) ∧
    (∀ items l, val = .mapping items →
      List.lookup name logs = some (.seq l) →
      items = [] ∧ r = logs) ∧
    (∀ items, val = .mapping items →
      (∀ l, List.lookup name logs ≠ some (.seq l)) →
      ∃ sub2,
        addLogItems items
          (match List.lookup name logs with
           | some (.nested s) => s
           | _ => ([] : Logs α)) = some sub2 ∧
        List.lookup name r = some (.nested sub2)) := by
  cases val with
  | scalar a =>
      simp only [addLog] at hr
      rcases hl : List.lookup name logs with - | e
      all_goals rw [hl] at hr
      case some =>
        cases e with
        | nested m => cases hr
        | seq l =>
            simp only [Option.some.injEq] at hr
            subst hr
            refine ⟨fun k hk => lookup_setLog_ne hk _ _, ?_, ?_, ?_⟩
            · intro a' ha
              injection ha with ha; subst ha
              rw [lookup_setLog_self]
            · intro items l' h hx
              cases h
            · intro items h hnx
              cases h
      case none =>
        simp only [Option.some.injEq] at hr
        subst hr
        refine ⟨fun k hk => lookup_setLog_ne hk _ _, ?_, ?_, ?_⟩
        · intro a' ha
          injection ha with ha; subst ha
          rw [lookup_setLog_self]
          rfl
        · intro items l' h hx
          cases h
        · intro items h hnx
          cases h
  | mapping items =>
      simp only [addLog] at hr
      rcases hl : List.lookup name logs with - | e
      all_goals rw [hl] at hr
      case none =>
        dsimp only at hr
        rcases hs : addLogItems items ([] : Logs α) with - | sub2
        all_goals rw [hs] at hr
        · cases hr
        · simp only [Option.some.injEq] at hr
          subst hr
          refine ⟨fun k hk => lookup_setLog_ne hk _ _, ?_, ?_, ?_⟩
          · intro a h
            cases h
          · intro items' l' h hl'
            cases hl'
          · intro items' h hnx
            injection h with h; subst h
            refine ⟨sub2, ?_, by rw [lookup_setLog_self]⟩
            exact hs
      case some =>
        cases e with
        | seq l =>
            dsimp only at hr
            cases items with
            | nil =>
                simp only [Option.some.injEq] at hr
                subst hr
                refine ⟨fun k hk => rfl, ?_, ?_, ?_⟩
                · intro a h
                  cases h
                · intro items' l' h hx
                  injection h with h
                  exact ⟨h.symm, rfl⟩
                · intro items' h hnx
                  exact absurd rfl (hnx l)
            | cons hd tl => cases hr
        | nested m =>
            dsimp only at hr
            rcases hs : addLogItems items m with - | sub2
            all_goals rw [hs] at hr
            · cases hr
            · simp only [Option.some.injEq] at hr
              subst hr
              refine ⟨fun k hk => lookup_setLog_ne hk _ _, ?_, ?_, ?_⟩
              · intro a h
                cases h
              · intro items' l' h hl'
                cases hl'
              · intro items' h hnx
                injection h with h; subst h
                refine ⟨sub2, ?_, by rw [lookup_setLog_self]⟩
                exact hs

/-- Witness for C8 at a concrete scalar merge into a two-key log. -/
theorem add_log_merge_rule_witness :
    (∀ k, k ≠ "loss" →
      List.lookup k [("acc", LogEntry.seq [7]), ("loss", LogEntry.seq [1, 5])] =
        List.lookup k [("acc", LogEntry.seq [7]), ("loss", LogEntry.seq [1])]) ∧
    (∀ a, HookVal.scalar (5 : ℕ) = .scalar a →
      List.lookup "loss"
          [("acc", LogEntry.seq [7]), ("loss", LogEntry.seq [1, 5])] =
        some (.seq
          ((match
              List.lookup "loss"
                [("acc", LogEntry.seq [7]), ("loss", LogEntry.seq [1])] with
            | some (.seq l) => l
            | _ => []) ++ [a]))) ∧
    (∀ items l, HookVal.scalar (5 : ℕ) = .mapping items →
      List.lookup "loss" [("acc", LogEntry.seq [7]), ("loss", LogEntry.seq [1])] =
        some (.seq l) →
      items = [] ∧
        ([("acc", LogEntry.seq [7]), ("loss", LogEntry.seq [1, 5])] : Logs ℕ) =
          [("acc", LogEntry.seq [7]), ("loss", LogEntry.seq [1])]) ∧
    (∀ items, HookVal.scalar (5 : ℕ) = .mapping items →
      (∀ l, List.lookup "loss"
          [("acc", LogEntry.seq [7]), ("loss", LogEntry.seq [1])] ≠
        some (.seq l)) →
      ∃ sub2,
        addLogItems items
          (match
              List.lookup "loss"
                [("acc", LogEntry.seq [7]), ("loss", LogEntry.seq [1])] with
           | some (.nested s) => s
           | _ => ([] : Logs ℕ)) = some sub2 ∧
        List.lookup "loss"
            [("acc", LogEntry.seq [7]), ("loss", LogEntry.seq [1, 5])] =
          some (.nested sub2)) :=
  add_log_merge_rule "loss" (HookVal.scalar 5)
    [("acc", LogEntry.seq [7]), ("loss", LogEntry.seq [1])]
    [("acc", LogEntry.seq [7]), ("loss", LogEntry.seq [1, 5])] rfl

/-- C8 counterexample to the original claim: merging an empty mapping value
under a name that holds a scalar list succeeds (`Trainer._add_log` keeps the
list and its item loop runs zero times), yet no nested log mapping is created
under the name — the entry is still the list afterwards. -/
theorem add_log_empty_mapping_keeps_list :
    addLog "loss" (HookVal.mapping ([] : List (String × HookVal ℕ)))
        [("loss", LogEntry.seq [1])] =
      some [("loss", LogEntry.seq [1])] ∧
    ∀ sub : Logs ℕ,
      List.lookup "loss" [("loss", LogEntry.seq [1])] ≠
        some (LogEntry.nested sub) := by
  refine ⟨rfl, fun sub h => ?_⟩
  have h2 : (some (LogEntry.seq [1]) : Option (LogEntry ℕ)) =
      some (LogEntry.nested sub) :=
    (rfl : List.lookup "loss" [("loss", LogEntry.seq [1])] =
      some (LogEntry.seq [1])).symm.trans h
  cases h2

/-! ## Data feeding -/

/-- C9: for a deterministic finite data iterator the double-buffered feeder
and the single-threaded feeder provide the network with the identical sequence
of batches — the same items, in the same order, with the same number of
yields. -/
theorem double_buffer_feeds_same_batches {α : Type} (items : List α) :
    run_network_double_buffer items = run_network items := by
  have h1 : ∀ l : List α, doubleBufferLoop l = (l, l.length + 1) := by
    intro l
    induction l with
    | nil => rfl
    | cons x rest ih => simp [doubleBufferLoop, ih]
  have h2 : ∀ l : List α, run_network l = (l, l.length) := by
    intro l
    induction l with
    | nil => rfl
    | cons x rest ih => simp [run_network, ih]
  cases items with
  | nil => rfl
  | cons x rest => simp [run_network_double_buffer, h1, h2]

/-! ## Layer `setup` validation and shapes -/

/-- C4 counterexample: `setup` accepts a requested size of `0` (and of `-3`)
without raising — the code validates only `isinstance(size, int)`, never
positivity — so "for every non-positive integer size, setup raises a
validation error" fails. -/
theorem setup_accepts_nonpositive_size :
    setupSizeCheck (some (.int 0)) 7 = Except.ok 0 ∧
    setupSizeCheck (some (.int (-3))) 7 = Except.ok (-3) :=
  ⟨rfl, rfl⟩

/-- C4 (amended): `setup` raises its validation error exactly when the
requested size value is not an `int`; integer sizes — including zero and
negative ones — are accepted, as is an absent size (defaulted to the input
feature size). -/
theorem setup_size_error_iff_not_int (sk : Option PySize) (m : ℤ) :
    (∃ e, setupSizeCheck sk m = .error e) ↔ sk = some .nonInt := by
  cases sk with
  | none => simp [setupSizeCheck]
  | some v =>
      cases v with
      | int n => simp [setupSizeCheck]
      | nonInt => exact ⟨fun _ => rfl, fun _ => ⟨"size must be int", rfl⟩⟩

/-- C5: for positive `size` and `in_size`, the parameter tensors declared by
`setup` (four `size × in_size` input weights, three `size` peephole vectors,
four `size × size` recurrent weights, four `size` biases) hold
`4·size·in_size + 3·size + 4·size² + 4·size` elements in total. -/
theorem setup_total_param_count (size in_size : ℕ)
    (_hs : 0 < size) (_hm : 0 < in_size) :
    totalParamCount size in_size =
      4 * size * in_size + 3 * size + 4 * size * size + 4 * size := by
  simp only [totalParamCount, setupParameterShapes, shapeCount, List.foldl]
  ring

/-- Witness for C5 at `size = 2, in_size = 3`. -/
theorem setup_total_param_count_witness :
    0 < 2 ∧ 0 < 3 ∧
    totalParamCount 2 3 = 4 * 2 * 3 + 3 * 2 + 4 * 2 * 2 + 4 * 2 :=
  ⟨by decide, by decide, setup_total_param_count 2 3 (by decide) (by decide)⟩

/-! ## Forward-pass step structure -/

/-- Each timestep of the sequential walk is one `forwardStep` applied to the
current input slice and the previous output/cell state. -/
theorem forwardAt_eq {α : Type} [CommRing α] {n m B : ℕ} (p : Params α n m)
    (g sg : Activation α) (x : ℕ → Fin B → Fin m → α)
    (y0 c0 : Fin B → Fin n → α) (t : ℕ) :
    forwardAt p g sg x y0 c0 t =
      forwardStep p g sg (x t) (prevY p g sg x y0 c0 t)
        (prevC p g sg x y0 c0 t) := by
  cases t <;> rfl

/-- C3: every timestep of `forward_pass` computes the new cell state as
`forget_gate ⊙ previous_cell + input_gate ⊙ block_input`; the output gate is
a sigmoid whose peephole term reads the new cell state `Ca[t]` while the
input and forget gates' peephole terms read the previous cell state
`Ca[t-1]`; the visible output is `output_gate ⊙ squash(cell_state)`; and the
configured activation `g` is used for the block input and for the cell
squashing. -/
theorem forward_gate_structure {α : Type} [CommRing α] {n m B : ℕ}
    (p : Params α n m) (g sg : Activation α) (x : ℕ → Fin B → Fin m → α)
    (y0 c0 : Fin B → Fin n → α) (t : ℕ) (b : Fin B) (k : Fin n) :
    (forwardAt p g sg x y0 c0 t).ca b k =
      (forwardAt p g sg x y0 c0 t).fb b k * prevC p g sg x y0 c0 t b k +
        (forwardAt p g sg x y0 c0 t).ib b k *
          (forwardAt p g sg x y0 c0 t).zb b k ∧
    (forwardAt p g sg x y0 c0 t).ob b k =
      sg.f ((∑ j, x t b j * p.Wo k j) +
        (∑ j, prevY p g sg x y0 c0 t b j * p.Ro j k) +
        (forwardAt p g sg x y0 c0 t).ca b k * p.Wco k + p.bo k) ∧
    (forwardAt p g sg x y0 c0 t).ib b k =
      sg.f ((∑ j, x t b j * p.Wi k j) +
        (∑ j, prevY p g sg x y0 c0 t b j * p.Ri j k) +
        prevC p g sg x y0 c0 t b k * p.Wci k + p.bi k) ∧
    (forwardAt p g sg x y0 c0 t).fb b k =
      sg.f ((∑ j, x t b j * p.Wf k j) +
        (∑ j, prevY p g sg x y0 c0 t b j * p.Rf j k) +
        prevC p g sg x y0 c0 t b k * p.Wcf k + p.bf k) ∧
    (forwardAt p g sg x y0 c0 t).zb b k =
      g.f ((∑ j, x t b j * p.Wz k j) +
        (∑ j, prevY p g sg x y0 c0 t b j * p.Rz j k) + p.bz k) ∧
    (forwardAt p g sg x y0 c0 t).y b k =
      (forwardAt p g sg x y0 c0 t).ob b k *
        g.f ((forwardAt p g sg x y0 c0 t).ca b k) := by
  rw [forwardAt_eq]
  refine ⟨?_, rfl, rfl, rfl, rfl, rfl⟩
  simp only [forwardStep]
  ring

/-! ## Peephole-weight gradient temporal alignment -/

/-- C2: with the zero-initialized context slots, the three peephole-weight
gradient accumulations of `backward_pass` each use their own gate's delta at
the correct temporal alignment: `dWco` accumulates the current cell state
against the output-gate delta, while `dWci` and `dWcf` accumulate the
previous cell state against the input-gate and forget-gate deltas
respectively — the shifted slice plus the boundary-correction term at the
sequence start (which reads the zero `dCa[-1]` slice, so the `t = 0` term of
the aligned sum, itself zero because `Ca[-1]` is zero, is matched
exactly). -/
theorem peephole_gradient_temporal_alignment {α : Type} [CommRing α]
    {n m B : ℕ} (p : Params α n m) (g sg : Activation α)
    (x : ℕ → Fin B → Fin m → α) (dl : ℕ → Fin B → Fin n → α) (T : ℕ)
    (k : Fin n) :
    (backward_gradients p g sg x (fun _ _ => 0) (fun _ _ => 0) dl T).Wco k =
      (∑ t ∈ Finset.range T, ∑ b,
        (forwardAt p g sg x (fun _ _ => 0) (fun _ _ => 0) t).ca b k *
          (deltaAt p g sg x (fun _ _ => 0) (fun _ _ => 0) dl T t).dOa b k) ∧
    (backward_gradients p g sg x (fun _ _ => 0) (fun _ _ => 0) dl T).Wci k =
      (∑ t ∈ Finset.range T, ∑ b,
        prevC p g sg x (fun _ _ => 0) (fun _ _ => 0) t b k *
          (deltaAt p g sg x (fun _ _ => 0) (fun _ _ => 0) dl T t).dIa b k) ∧
    (backward_gradients p g sg x (fun _ _ => 0) (fun _ _ => 0) dl T).Wcf k =
      (∑ t ∈ Finset.range T, ∑ b,
        prevC p g sg x (fun _ _ => 0) (fun _ _ => 0) t b k *
          (deltaAt p g sg x (fun _ _ => 0) (fun _ _ => 0) dl T t).dFa b k) := by
  refine ⟨rfl, ?_, ?_⟩ <;>
  · simp only [backward_gradients, dCaContext, zero_mul, Finset.sum_const_zero,
      add_zero]
    cases T with
    | zero => simp
    | succ N =>
        rw [Finset.range_eq_Ico,
          Finset.sum_eq_sum_Ico_succ_bot (Nat.succ_pos N)]
        simp [prevC]

/-! ## Forward-pass frame property -/

/-- C10: `forward_pass` writes only the output buffer and the ten forward
internal buffers `Za … Cb`; the inputs, parameters, gradients, input deltas,
output deltas, and the ten backward-only delta buffers are unchanged (and
even the context slices of the written buffers are untouched). -/
theorem forward_pass_frame {α : Type} [CommRing α] {n m B : ℕ}
    (g sg : Activation α) (T : ℕ) (buf : Buffers α n m B) :
    (forward_pass g sg T buf).inputs = buf.inputs ∧
    (forward_pass g sg T buf).parameters = buf.parameters ∧
    (forward_pass g sg T buf).gradients = buf.gradients ∧
    (forward_pass g sg T buf).input_deltas = buf.input_deltas ∧
    (forward_pass g sg T buf).output_deltas = buf.output_deltas ∧
    (forward_pass g sg T buf).dZa = buf.dZa ∧
    (forward_pass g sg T buf).dZb = buf.dZb ∧
    (forward_pass g sg T buf).dIa = buf.dIa ∧
    (forward_pass g sg T buf).dIb = buf.dIb ∧
    (forward_pass g sg T buf).dFa = buf.dFa ∧
    (forward_pass g sg T buf).dFb = buf.dFb ∧
    (forward_pass g sg T buf).dOa = buf.dOa ∧
    (forward_pass g sg T buf).dOb = buf.dOb ∧
    (forward_pass g sg T buf).dCa = buf.dCa ∧
    (forward_pass g sg T buf).dCb = buf.dCb ∧
    (forward_pass g sg T buf).outputs.ctx = buf.outputs.ctx ∧
    (forward_pass g sg T buf).Za.ctx = buf.Za.ctx ∧
    (forward_pass g sg T buf).Zb.ctx = buf.Zb.ctx ∧
    (forward_pass g sg T buf).Ia.ctx = buf.Ia.ctx ∧
    (forward_pass g sg T buf).Ib.ctx = buf.Ib.ctx ∧
    (forward_pass g sg T buf).Fa.ctx = buf.Fa.ctx ∧
    (forward_pass g sg T buf).Fb.ctx = buf.Fb.ctx ∧
    (forward_pass g sg T buf).Oa.ctx = buf.Oa.ctx ∧
    (forward_pass g sg T buf).Ob.ctx = buf.Ob.ctx ∧
    (forward_pass g sg T buf).Ca.ctx = buf.Ca.ctx ∧
    (forward_pass g sg T buf).Cb.ctx = buf.Cb.ctx :=
  ⟨rfl, rfl, rfl, rfl, rfl, rfl, rfl, rfl, rfl, rfl, rfl, rfl, rfl, rfl, rfl,
   rfl, rfl, rfl, rfl, rfl, rfl, rfl, rfl, rfl, rfl, rfl⟩

/-! ## Gradient correctness: inner-product toolkit -/

theorem inn_congr_left {α : Type} [CommRing α] {B n : ℕ}
    {u v w : Fin B → Fin n → α} (h : ∀ b k, u b k = v b k) :
    inn u w = inn v w :=
  Finset.sum_congr rfl fun b _ => Finset.sum_congr rfl fun k _ => by rw [h]

theorem inn_congr_right {α : Type} [CommRing α] {B n : ℕ}
    {u v w : Fin B → Fin n → α} (h : ∀ b k, v b k = w b k) :
    inn u v = inn u w :=
  Finset.sum_congr rfl fun b _ => Finset.sum_congr rfl fun k _ => by rw [h]

theorem inn_add_left {α : Type} [CommRing α] {B n : ℕ}
    (u v w : Fin B → Fin n → α) :
    inn (fun b k => u b k + v b k) w = inn u w + inn v w := by
  simp [inn, add_mul, Finset.sum_add_distrib]

theorem inn_add_right {α : Type} [CommRing α] {B n : ℕ}
    (u v w : Fin B → Fin n → α) :
    inn u (fun b k => v b k + w b k) = inn u v + inn u w := by
  simp [inn, mul_add, Finset.sum_add_distrib]

theorem inn_zero_right {α : Type} [CommRing α] {B n : ℕ}
    (u : Fin B → Fin n → α) : inn u (fun _ _ => 0) = 0 := by
  simp [inn]

theorem inn_mul_right {α : Type} [CommRing α] {B n : ℕ}
    (u w v : Fin B → Fin n → α) :
    inn u (fun b k => w b k * v b k) = inn (fun b k => u b k * w b k) v :=
  Finset.sum_congr rfl fun b _ => Finset.sum_congr rfl fun k _ => by ring

/-- Transposition: contracting `d` against a pushforward `v · Wᵀ` equals
contracting the pullback `d · W` against `v`. -/
theorem inn_push {α : Type} [CommRing α] {B n m : ℕ}
    (W : Fin n → Fin m → α) (d : Fin B → Fin n → α)
    (v : Fin B → Fin m → α) :
    inn d (fun b k => ∑ j, v b j * W k j) =
      inn (fun b j => ∑ k, d b k * W k j) v := by
  refine Finset.sum_congr rfl fun b _ => ?_
  simp only [Finset.mul_sum, Finset.sum_mul]
  rw [Finset.sum_comm]
  exact Finset.sum_congr rfl fun j _ => Finset.sum_congr rfl fun k _ => by ring

/-! ## Gradient correctness: unfolding the backward and tangent steps -/

theorem backwardStep_dy {α : Type} [CommRing α] {n m B : ℕ}
    (p : Params α n m) (g sg : Activation α) (s : Step α B n)
    (cp fbn : Fin B → Fin n → α) (N : Deltas α B n)
    (dlk : Fin B → Fin n → α) :
    (backwardStep p g sg s cp fbn N dlk).dy = fun b j =>
      dlk b j + (∑ k, N.dIa b k * p.Ri j k) + (∑ k, N.dFa b k * p.Rf j k) +
        (∑ k, N.dOa b k * p.Ro j k) + (∑ k, N.dZa b k * p.Rz j k) := rfl

theorem backwardStep_dOa {α : Type} [CommRing α] {n m B : ℕ}
    (p : Params α n m) (g sg : Activation α) (s : Step α B n)
    (cp fbn : Fin B → Fin n → α) (N : Deltas α B n)
    (dlk : Fin B → Fin n → α) :
    (backwardStep p g sg s cp fbn N dlk).dOa = fun b k =>
      ((backwardStep p g sg s cp fbn N dlk).dy b k * s.cb b k) *
        sg.d (s.ob b k) := rfl

theorem backwardStep_dCb {α : Type} [CommRing α] {n m B : ℕ}
    (p : Params α n m) (g sg : Activation α) (s : Step α B n)
    (cp fbn : Fin B → Fin n → α) (N : Deltas α B n)
    (dlk : Fin B → Fin n → α) :
    (backwardStep p g sg s cp fbn N dlk).dCb = fun b k =>
      ((backwardStep p g sg s cp fbn N dlk).dy b k * s.ob b k) *
        g.d (s.cb b k) := rfl

theorem backwardStep_dCa {α : Type} [CommRing α] {n m B : ℕ}
    (p : Params α n m) (g sg : Activation α) (s : Step α B n)
    (cp fbn : Fin B → Fin n → α) (N : Deltas α B n)
    (dlk : Fin B → Fin n → α) :
    (backwardStep p g sg s cp fbn N dlk).dCa = fun b k =>
      N.dIa b k * p.Wci k + N.dFa b k * p.Wcf k +
        (backwardStep p g sg s cp fbn N dlk).dOa b k * p.Wco k +
        (backwardStep p g sg s cp fbn N dlk).dCb b k +
        N.dCa b k * fbn b k := rfl

theorem backwardStep_dFa {α : Type} [CommRing α] {n m B : ℕ}
    (p : Params α n m) (g sg : Activation α) (s : Step α B n)
    (cp fbn : Fin B → Fin n → α) (N : Deltas α B n)
    (dlk : Fin B → Fin n → α) :
    (backwardStep p g sg s cp fbn N dlk).dFa = fun b k =>
      ((backwardStep p g sg s cp fbn N dlk).dCa b k * cp b k) *
        sg.d (s.fb b k) := rfl

theorem backwardStep_dIa {α : Type} [CommRing α] {n m B : ℕ}
    (p : Params α n m) (g sg : Activation α) (s : Step α B n)
    (cp fbn : Fin B → Fin n → α) (N : Deltas α B n)
    (dlk : Fin B → Fin n → α) :
    (backwardStep p g sg s cp fbn N dlk).dIa = fun b k =>
      ((backwardStep p g sg s cp fbn N dlk).dCa b k * s.zb b k) *
        sg.d (s.ib b k) := rfl

theorem backwardStep_dZa {α : Type} [CommRing α] {n m B : ℕ}
    (p : Params α n m) (g sg : Activation α) (s : Step α B n)
    (cp fbn : Fin B → Fin n → α) (N : Deltas α B n)
    (dlk : Fin B → Fin n → α) :
    (backwardStep p g sg s cp fbn N dlk).dZa = fun b k =>
      ((backwardStep p g sg s cp fbn N dlk).dCa b k * s.ib b k) *
        g.d (s.zb b k) := rfl

theorem tangentStep_zadot {α : Type} [CommRing α] {n m B : ℕ}
    (p : Params α n m) (g sg : Activation α) (s : Step α B n)
    (cp : Fin B → Fin n → α) (inj1 : Inj α B n)
    (yd cd : Fin B → Fin n → α) :
    (tangentStep p g sg s cp inj1 yd cd).zadot = fun b k =>
      inj1.jza b k + ∑ j, yd b j * p.Rz j k := rfl

theorem tangentStep_iadot {α : Type} [CommRing α] {n m B : ℕ}
    (p : Params α n m) (g sg : Activation α) (s : Step α B n)
    (cp : Fin B → Fin n → α) (inj1 : Inj α B n)
    (yd cd : Fin B → Fin n → α) :
    (tangentStep p g sg s cp inj1 yd cd).iadot = fun b k =>
      inj1.jia b k + (∑ j, yd b j * p.Ri j k) + cd b k * p.Wci k := rfl

theorem tangentStep_fadot {α : Type} [CommRing α] {n m B : ℕ}
    (p : Params α n m) (g sg : Activation α) (s : Step α B n)
    (cp : Fin B → Fin n → α) (inj1 : Inj α B n)
    (yd cd : Fin B → Fin n → α) :
    (tangentStep p g sg s cp inj1 yd cd).fadot = fun b k =>
      inj1.jfa b k + (∑ j, yd b j * p.Rf j k) + cd b k * p.Wcf k := rfl

theorem tangentStep_cdot {α : Type} [CommRing α] {n m B : ℕ}
    (p : Params α n m) (g sg : Activation α) (s : Step α B n)
    (cp : Fin B → Fin n → α) (inj1 : Inj α B n)
    (yd cd : Fin B → Fin n → α) :
    (tangentStep p g sg s cp inj1 yd cd).cdot = fun b k =>
      ((tangentStep p g sg s cp inj1 yd cd).iadot b k * sg.d (s.ib b k)) *
          s.zb b k +
        s.ib b k *
          ((tangentStep p g sg s cp inj1 yd cd).zadot b k * g.d (s.zb b k)) +
        ((tangentStep p g sg s cp inj1 yd cd).fadot b k * sg.d (s.fb b k)) *
          cp b k +
        s.fb b k * cd b k := rfl

theorem tangentStep_oadot {α : Type} [CommRing α] {n m B : ℕ}
    (p : Params α n m) (g sg : Activation α) (s : Step α B n)
    (cp : Fin B → Fin n → α) (inj1 : Inj α B n)
    (yd cd : Fin B → Fin n → α) :
    (tangentStep p g sg s cp inj1 yd cd).oadot = fun b k =>
      inj1.joa b k + (∑ j, yd b j * p.Ro j k) +
        (tangentStep p g sg s cp inj1 yd cd).cdot b k * p.Wco k := rfl

theorem tangentStep_ydot {α : Type} [CommRing α] {n m B : ℕ}
    (p : Params α n m) (g sg : Activation α) (s : Step α B n)
    (cp : Fin B → Fin n → α) (inj1 : Inj α B n)
    (yd cd : Fin B → Fin n → α) :
    (tangentStep p g sg s cp inj1 yd cd).ydot = fun b k =>
      ((tangentStep p g sg s cp inj1 yd cd).oadot b k * sg.d (s.ob b k)) *
          s.cb b k +
        s.ob b k *
          (g.d (s.cb b k) *
            (tangentStep p g sg s cp inj1 yd cd).cdot b k) := rfl


theorem inn_factor_right {α : Type} [CommRing α] {B n : ℕ}
    {u t w v : Fin B → Fin n → α} (h : ∀ b k, t b k = w b k * v b k) :
    inn u t = inn (fun b k => u b k * w b k) v :=
  (inn_congr_right h).trans (inn_mul_right u w v)

/-- The heart of gradient correctness: one reverse-loop iteration is the
adjoint of one tangent-recursion step.  All delta and tangent components are
abstracted into plain families constrained by their defining equations (the
bodies of `backwardStep` and `tangentStep`); the conclusion trades the
incoming cotangents against the outgoing ones, leaving the injection
contractions. -/
theorem step_core_alg {α : Type} [CommRing α] {n m B : ℕ} (p : Params α n m)
    (g sg : Activation α) (s : Step α B n)
    (cp fbn fbNext : Fin B → Fin n → α)
    (nIa nFa nOa nZa nCa : Fin B → Fin n → α)
    (dlk : Fin B → Fin n → α) (inj1 : Inj α B n)
    (yd cd : Fin B → Fin n → α)
    (dy dOa dCb dCa dFa dIa dZa : Fin B → Fin n → α)
    (zadot iadot fadot oadot cdot ydot : Fin B → Fin n → α)
    (hfb : ∀ b k, nCa b k * fbn b k = nCa b k * fbNext b k)
    (hdy : ∀ b j, dy b j = dlk b j + (∑ k, nIa b k * p.Ri j k) +
      (∑ k, nFa b k * p.Rf j k) + (∑ k, nOa b k * p.Ro j k) +
      (∑ k, nZa b k * p.Rz j k))
    (hdOa : ∀ b k, dOa b k = (dy b k * s.cb b k) * sg.d (s.ob b k))
    (hdCb : ∀ b k, dCb b k = (dy b k * s.ob b k) * g.d (s.cb b k))
    (hdCa : ∀ b k, dCa b k = nIa b k * p.Wci k + nFa b k * p.Wcf k +
      dOa b k * p.Wco k + dCb b k + nCa b k * fbn b k)
    (hdFa : ∀ b k, dFa b k = (dCa b k * cp b k) * sg.d (s.fb b k))
    (hdIa : ∀ b k, dIa b k = (dCa b k * s.zb b k) * sg.d (s.ib b k))
    (hdZa : ∀ b k, dZa b k = (dCa b k * s.ib b k) * g.d (s.zb b k))
    (hzadot : ∀ b k, zadot b k = inj1.jza b k + ∑ j, yd b j * p.Rz j k)
    (hiadot : ∀ b k, iadot b k = inj1.jia b k +
      (∑ j, yd b j * p.Ri j k) + cd b k * p.Wci k)
    (hfadot : ∀ b k, fadot b k = inj1.jfa b k +
      (∑ j, yd b j * p.Rf j k) + cd b k * p.Wcf k)
    (hcdot : ∀ b k, cdot b k = (iadot b k * sg.d (s.ib b k)) * s.zb b k +
      s.ib b k * (zadot b k * g.d (s.zb b k)) +
      (fadot b k * sg.d (s.fb b k)) * cp b k + s.fb b k * cd b k)
    (hoadot : ∀ b k, oadot b k = inj1.joa b k +
      (∑ j, yd b j * p.Ro j k) + cdot b k * p.Wco k)
    (hydot : ∀ b k, ydot b k = (oadot b k * sg.d (s.ob b k)) * s.cb b k +
      s.ob b k * (g.d (s.cb b k) * cdot b k)) :
    inn dlk ydot +
      inn (fun b j => (∑ k, nIa b k * p.Ri j k) + (∑ k, nFa b k * p.Rf j k) +
        (∑ k, nOa b k * p.Ro j k) + (∑ k, nZa b k * p.Rz j k)) ydot +
      inn (fun b k => nIa b k * p.Wci k + nFa b k * p.Wcf k +
        nCa b k * fbNext b k) cdot =
    (inn dZa inj1.jza + inn dIa inj1.jia + inn dFa inj1.jfa +
      inn dOa inj1.joa) +
      inn (fun b j => (∑ k, dIa b k * p.Ri j k) + (∑ k, dFa b k * p.Rf j k) +
        (∑ k, dOa b k * p.Ro j k) + (∑ k, dZa b k * p.Rz j k)) yd +
      inn (fun b k => dIa b k * p.Wci k + dFa b k * p.Wcf k +
        dCa b k * s.fb b k) cd := by
  have e1 : inn dlk ydot +
      inn (fun b j => (∑ k, nIa b k * p.Ri j k) + (∑ k, nFa b k * p.Rf j k) +
        (∑ k, nOa b k * p.Ro j k) + (∑ k, nZa b k * p.Rz j k)) ydot =
      inn dy ydot := by
    rw [← inn_add_left]
    exact inn_congr_left fun b j => by rw [hdy b j]; ring
  have e2 : inn dy ydot = inn dOa oadot +
      inn (fun b k => dy b k * s.ob b k * g.d (s.cb b k)) cdot := by
    have h1 : inn dy ydot = inn dy
        (fun b k => (oadot b k * sg.d (s.ob b k)) * s.cb b k +
          s.ob b k * (g.d (s.cb b k) * cdot b k)) :=
      inn_congr_right hydot
    rw [h1, inn_add_right dy
      (fun b k => (oadot b k * sg.d (s.ob b k)) * s.cb b k)
      (fun b k => s.ob b k * (g.d (s.cb b k) * cdot b k))]
    congr 1
    · refine (inn_factor_right (w := fun b k => sg.d (s.ob b k) * s.cb b k)
        (v := oadot) (fun b k => by ring)).trans
        (inn_congr_left fun b k => by rw [hdOa b k]; ring)
    · exact (inn_factor_right (w := fun b k => s.ob b k * g.d (s.cb b k))
        (v := cdot) (fun b k => by ring)).trans
        (inn_congr_left fun b k => by ring)
  have e3 : inn dOa oadot = inn dOa inj1.joa +
      inn (fun b j => ∑ k, dOa b k * p.Ro j k) yd +
      inn (fun b k => dOa b k * p.Wco k) cdot := by
    have h1 : inn dOa oadot = inn dOa
        (fun b k => (inj1.joa b k + (∑ j, yd b j * p.Ro j k)) +
          cdot b k * p.Wco k) :=
      inn_congr_right fun b k => by rw [hoadot b k]
    rw [h1, inn_add_right dOa
      (fun b k => inj1.joa b k + (∑ j, yd b j * p.Ro j k))
      (fun b k => cdot b k * p.Wco k),
      inn_add_right dOa inj1.joa (fun b k => ∑ j, yd b j * p.Ro j k)]
    congr 1
    · congr 1
      exact inn_push (fun k j => p.Ro j k) dOa yd
    · exact inn_factor_right (w := fun b k => p.Wco k) (v := cdot)
        (fun b k => by ring)
  have e4 : inn (fun b k => dy b k * s.ob b k * g.d (s.cb b k)) cdot +
      inn (fun b k => dOa b k * p.Wco k) cdot +
      inn (fun b k => nIa b k * p.Wci k + nFa b k * p.Wcf k +
        nCa b k * fbNext b k) cdot = inn dCa cdot := by
    rw [← inn_add_left, ← inn_add_left]
    refine inn_congr_left fun b k => ?_
    rw [hdCa b k, hdCb b k, ← hfb b k]
    ring
  have e5 : inn dCa cdot = inn dIa iadot + inn dZa zadot + inn dFa fadot +
      inn (fun b k => dCa b k * s.fb b k) cd := by
    have h1 : inn dCa cdot = inn dCa
        (fun b k => ((iadot b k * sg.d (s.ib b k)) * s.zb b k +
          s.ib b k * (zadot b k * g.d (s.zb b k)) +
          (fadot b k * sg.d (s.fb b k)) * cp b k) + s.fb b k * cd b k) :=
      inn_congr_right fun b k => by rw [hcdot b k]
    rw [h1, inn_add_right dCa
      (fun b k => (iadot b k * sg.d (s.ib b k)) * s.zb b k +
        s.ib b k * (zadot b k * g.d (s.zb b k)) +
        (fadot b k * sg.d (s.fb b k)) * cp b k)
      (fun b k => s.fb b k * cd b k),
      inn_add_right dCa
      (fun b k => (iadot b k * sg.d (s.ib b k)) * s.zb b k +
        s.ib b k * (zadot b k * g.d (s.zb b k)))
      (fun b k => (fadot b k * sg.d (s.fb b k)) * cp b k),
      inn_add_right dCa
      (fun b k => (iadot b k * sg.d (s.ib b k)) * s.zb b k)
      (fun b k => s.ib b k * (zadot b k * g.d (s.zb b k)))]
    have p1 : inn dCa (fun b k => (iadot b k * sg.d (s.ib b k)) * s.zb b k) =
        inn dIa iadot :=
      (inn_factor_right (w := fun b k => sg.d (s.ib b k) * s.zb b k)
        (v := iadot) (fun b k => by ring)).trans
        (inn_congr_left fun b k => by rw [hdIa b k]; ring)
    have p2 : inn dCa (fun b k => s.ib b k * (zadot b k * g.d (s.zb b k))) =
        inn dZa zadot :=
      (inn_factor_right (w := fun b k => s.ib b k * g.d (s.zb b k))
        (v := zadot) (fun b k => by ring)).trans
        (inn_congr_left fun b k => by rw [hdZa b k]; ring)
    have p3 : inn dCa (fun b k => (fadot b k * sg.d (s.fb b k)) * cp b k) =
        inn dFa fadot :=
      (inn_factor_right (w := fun b k => sg.d (s.fb b k) * cp b k)
        (v := fadot) (fun b k => by ring)).trans
        (inn_congr_left fun b k => by rw [hdFa b k]; ring)
    have p4 : inn dCa (fun b k => s.fb b k * cd b k) =
        inn (fun b k => dCa b k * s.fb b k) cd :=
      inn_factor_right (w := s.fb) (v := cd) (fun b k => rfl)
    rw [p1, p2, p3, p4]
  have e6 : inn dIa iadot = inn dIa inj1.jia +
      inn (fun b j => ∑ k, dIa b k * p.Ri j k) yd +
      inn (fun b k => dIa b k * p.Wci k) cd := by
    have h1 : inn dIa iadot = inn dIa
        (fun b k => (inj1.jia b k + (∑ j, yd b j * p.Ri j k)) +
          cd b k * p.Wci k) :=
      inn_congr_right fun b k => by rw [hiadot b k]
    rw [h1, inn_add_right dIa
      (fun b k => inj1.jia b k + (∑ j, yd b j * p.Ri j k))
      (fun b k => cd b k * p.Wci k),
      inn_add_right dIa inj1.jia (fun b k => ∑ j, yd b j * p.Ri j k)]
    congr 1
    · congr 1
      exact inn_push (fun k j => p.Ri j k) dIa yd
    · exact inn_factor_right (w := fun b k => p.Wci k) (v := cd)
        (fun b k => by ring)
  have e7 : inn dFa fadot = inn dFa inj1.jfa +
      inn (fun b j => ∑ k, dFa b k * p.Rf j k) yd +
      inn (fun b k => dFa b k * p.Wcf k) cd := by
    have h1 : inn dFa fadot = inn dFa
        (fun b k => (inj1.jfa b k + (∑ j, yd b j * p.Rf j k)) +
          cd b k * p.Wcf k) :=
      inn_congr_right fun b k => by rw [hfadot b k]
    rw [h1, inn_add_right dFa
      (fun b k => inj1.jfa b k + (∑ j, yd b j * p.Rf j k))
      (fun b k => cd b k * p.Wcf k),
      inn_add_right dFa inj1.jfa (fun b k => ∑ j, yd b j * p.Rf j k)]
    congr 1
    · congr 1
      exact inn_push (fun k j => p.Rf j k) dFa yd
    · exact inn_factor_right (w := fun b k => p.Wcf k) (v := cd)
        (fun b k => by ring)
  have e8 : inn dZa zadot = inn dZa inj1.jza +
      inn (fun b j => ∑ k, dZa b k * p.Rz j k) yd := by
    have h1 : inn dZa zadot = inn dZa
        (fun b k => inj1.jza b k + ∑ j, yd b j * p.Rz j k) :=
      inn_congr_right fun b k => by rw [hzadot b k]
    rw [h1, inn_add_right dZa inj1.jza (fun b k => ∑ j, yd b j * p.Rz j k)]
    congr 1
    exact inn_push (fun k j => p.Rz j k) dZa yd
  have e9 : inn (fun b j => (∑ k, dIa b k * p.Ri j k) +
      (∑ k, dFa b k * p.Rf j k) + (∑ k, dOa b k * p.Ro j k) +
      (∑ k, dZa b k * p.Rz j k)) yd =
      inn (fun b j => ∑ k, dIa b k * p.Ri j k) yd +
      inn (fun b j => ∑ k, dFa b k * p.Rf j k) yd +
      inn (fun b j => ∑ k, dOa b k * p.Ro j k) yd +
      inn (fun b j => ∑ k, dZa b k * p.Rz j k) yd := by
    rw [inn_add_left
      (fun b j => (∑ k, dIa b k * p.Ri j k) + (∑ k, dFa b k * p.Rf j k) +
        (∑ k, dOa b k * p.Ro j k))
      (fun b j => ∑ k, dZa b k * p.Rz j k) yd,
      inn_add_left
      (fun b j => (∑ k, dIa b k * p.Ri j k) + (∑ k, dFa b k * p.Rf j k))
      (fun b j => ∑ k, dOa b k * p.Ro j k) yd,
      inn_add_left (fun b j => ∑ k, dIa b k * p.Ri j k)
      (fun b j => ∑ k, dFa b k * p.Rf j k) yd]
  have e10 : inn (fun b k => dIa b k * p.Wci k + dFa b k * p.Wcf k +
      dCa b k * s.fb b k) cd =
      inn (fun b k => dIa b k * p.Wci k) cd +
      inn (fun b k => dFa b k * p.Wcf k) cd +
      inn (fun b k => dCa b k * s.fb b k) cd := by
    rw [inn_add_left
      (fun b k => dIa b k * p.Wci k + dFa b k * p.Wcf k)
      (fun b k => dCa b k * s.fb b k) cd,
      inn_add_left (fun b k => dIa b k * p.Wci k)
      (fun b k => dFa b k * p.Wcf k) cd]
  linear_combination e1 + e2 + e3 + e4 + e5 + e6 + e7 + e8 - e9 - e10


/-! ## Gradient correctness: stepping the backward and tangent walks -/

/-- Timesteps at or beyond the sequence end carry the zero boundary
deltas. -/
theorem deltaAt_of_le {α : Type} [CommRing α] {n m B : ℕ} (p : Params α n m)
    (g sg : Activation α) (x : ℕ → Fin B → Fin m → α)
    (y0 c0 : Fin B → Fin n → α) (dl : ℕ → Fin B → Fin n → α) {T t : ℕ}
    (h : T ≤ t) : deltaAt p g sg x y0 c0 dl T t = zeroDeltas := by
  unfold deltaAt
  rw [Nat.sub_eq_zero_of_le h]
  rfl

/-- One reverse-loop iteration, re-expressed at time index `t < T`. -/
theorem deltaAt_succ {α : Type} [CommRing α] {n m B : ℕ} (p : Params α n m)
    (g sg : Activation α) (x : ℕ → Fin B → Fin m → α)
    (y0 c0 : Fin B → Fin n → α) (dl : ℕ → Fin B → Fin n → α) {T t : ℕ}
    (h : t < T) :
    deltaAt p g sg x y0 c0 dl T t =
      backwardStep p g sg (forwardAt p g sg x y0 c0 t)
        (prevC p g sg x y0 c0 t)
        (if t + 1 < T then (forwardAt p g sg x y0 c0 (t + 1)).fb
          else fun _ _ => 0)
        (deltaAt p g sg x y0 c0 dl T (t + 1)) (dl t) := by
  unfold deltaAt
  have h1 : T - t = (T - (t + 1)) + 1 := by omega
  rw [h1]
  show backwardStep p g sg (forwardAt p g sg x y0 c0 (T - (T - (t+1) + 1)))
      (prevC p g sg x y0 c0 (T - (T - (t+1) + 1)))
      (if T - (T - (t+1) + 1) + 1 < T
        then (forwardAt p g sg x y0 c0 (T - (T - (t+1) + 1) + 1)).fb
        else fun _ _ => 0)
      (backwardAt p g sg x y0 c0 dl T (T - (t+1))) (dl (T - (T - (t+1) + 1)))
    = _
  have h2 : T - (T - (t + 1) + 1) = t := by omega
  rw [h2]

/-- The tangent walk is one `tangentStep` per timestep. -/
theorem tangentAt_eq {α : Type} [CommRing α] {n m B : ℕ} (p : Params α n m)
    (g sg : Activation α) (x : ℕ → Fin B → Fin m → α)
    (y0 c0 : Fin B → Fin n → α) (inj : ℕ → Inj α B n) (t : ℕ) :
    tangentAt p g sg x y0 c0 inj t =
      tangentStep p g sg (forwardAt p g sg x y0 c0 t)
        (prevC p g sg x y0 c0 t) (inj t)
        (ydotPrev p g sg x y0 c0 inj t) (cdotPrev p g sg x y0 c0 inj t) := by
  cases t <;> rfl

/-- C1 step lemma: one reverse-loop iteration trades the cotangents at `t+1`
for the cotangents at `t`, leaving the injection contraction of timestep
`t`. -/
theorem step_core {α : Type} [CommRing α] {n m B : ℕ} (p : Params α n m)
    (g sg : Activation α) (x : ℕ → Fin B → Fin m → α)
    (y0 c0 : Fin B → Fin n → α) (dl : ℕ → Fin B → Fin n → α)
    (inj : ℕ → Inj α B n) {T k : ℕ} (hk : k < T) :
    inn (dl k) ((tangentAt p g sg x y0 c0 inj k).ydot) +
      inn (recPull p (deltaAt p g sg x y0 c0 dl T (k + 1)))
        (ydotPrev p g sg x y0 c0 inj (k + 1)) +
      inn (cellPull p ((forwardAt p g sg x y0 c0 (k + 1)).fb)
        (deltaAt p g sg x y0 c0 dl T (k + 1)))
        (cdotPrev p g sg x y0 c0 inj (k + 1)) =
    injContract (deltaAt p g sg x y0 c0 dl T k) (inj k) +
      inn (recPull p (deltaAt p g sg x y0 c0 dl T k))
        (ydotPrev p g sg x y0 c0 inj k) +
      inn (cellPull p ((forwardAt p g sg x y0 c0 k).fb)
        (deltaAt p g sg x y0 c0 dl T k))
        (cdotPrev p g sg x y0 c0 inj k) := by
  have hD := deltaAt_succ p g sg x y0 c0 dl hk
  have hfb : ∀ b kk, (deltaAt p g sg x y0 c0 dl T (k + 1)).dCa b kk *
      (if k + 1 < T then (forwardAt p g sg x y0 c0 (k + 1)).fb
        else fun _ _ => 0) b kk =
      (deltaAt p g sg x y0 c0 dl T (k + 1)).dCa b kk *
        (forwardAt p g sg x y0 c0 (k + 1)).fb b kk := by
    intro b kk
    by_cases h2 : k + 1 < T
    · rw [if_pos h2]
    · rw [if_neg h2, deltaAt_of_le p g sg x y0 c0 dl (by omega)]
      show (0 : α) * _ = (0 : α) * _
      rw [zero_mul, zero_mul]
  have hT := tangentAt_eq p g sg x y0 c0 inj k
  unfold recPull cellPull injContract
  refine step_core_alg p g sg (forwardAt p g sg x y0 c0 k)
    (prevC p g sg x y0 c0 k)
    (if k + 1 < T then (forwardAt p g sg x y0 c0 (k + 1)).fb
      else fun _ _ => 0)
    ((forwardAt p g sg x y0 c0 (k + 1)).fb)
    ((deltaAt p g sg x y0 c0 dl T (k + 1)).dIa)
    ((deltaAt p g sg x y0 c0 dl T (k + 1)).dFa)
    ((deltaAt p g sg x y0 c0 dl T (k + 1)).dOa)
    ((deltaAt p g sg x y0 c0 dl T (k + 1)).dZa)
    ((deltaAt p g sg x y0 c0 dl T (k + 1)).dCa)
    (dl k) (inj k)
    (ydotPrev p g sg x y0 c0 inj k) (cdotPrev p g sg x y0 c0 inj k)
    ((deltaAt p g sg x y0 c0 dl T k).dy)
    ((deltaAt p g sg x y0 c0 dl T k).dOa)
    ((deltaAt p g sg x y0 c0 dl T k).dCb)
    ((deltaAt p g sg x y0 c0 dl T k).dCa)
    ((deltaAt p g sg x y0 c0 dl T k).dFa)
    ((deltaAt p g sg x y0 c0 dl T k).dIa)
    ((deltaAt p g sg x y0 c0 dl T k).dZa)
    ((tangentAt p g sg x y0 c0 inj k).zadot)
    ((tangentAt p g sg x y0 c0 inj k).iadot)
    ((tangentAt p g sg x y0 c0 inj k).fadot)
    ((tangentAt p g sg x y0 c0 inj k).oadot)
    ((tangentAt p g sg x y0 c0 inj k).cdot)
    ((tangentAt p g sg x y0 c0 inj k).ydot)
    hfb ?_ ?_ ?_ ?_ ?_ ?_ ?_ ?_ ?_ ?_ ?_ ?_ ?_ <;>
  · intro b kk
    simp only [hD, hT]
    rfl


theorem inn_zero_left {α : Type} [CommRing α] {B n : ℕ}
    (u : Fin B → Fin n → α) : inn (fun _ _ => 0) u = 0 := by
  simp [inn]

theorem inn_add4 {α : Type} [CommRing α] {B n : ℕ}
    (u A C D E : Fin B → Fin n → α) :
    inn u (fun b k => A b k + C b k + D b k + E b k) =
      inn u A + inn u C + inn u D + inn u E := by
  simp [inn, mul_add, Finset.sum_add_distrib]

theorem inn_add5 {α : Type} [CommRing α] {B n : ℕ}
    (u A C D E F : Fin B → Fin n → α) :
    inn u (fun b k => A b k + C b k + D b k + E b k + F b k) =
      inn u A + inn u C + inn u D + inn u E + inn u F := by
  simp [inn, mul_add, Finset.sum_add_distrib]

theorem sum3_swap {α : Type} [CommRing α] {β γ δ : Type}
    (s1 : Finset β) (s2 : Finset γ) (s3 : Finset δ) (F : β → γ → δ → α) :
    (∑ a ∈ s1, ∑ b ∈ s2, ∑ c ∈ s3, F a b c) =
      ∑ c ∈ s3, ∑ a ∈ s1, ∑ b ∈ s2, F a b c :=
  calc (∑ a ∈ s1, ∑ b ∈ s2, ∑ c ∈ s3, F a b c)
      = ∑ a ∈ s1, ∑ c ∈ s3, ∑ b ∈ s2, F a b c :=
        Finset.sum_congr rfl fun _ _ => Finset.sum_comm
    _ = ∑ c ∈ s3, ∑ a ∈ s1, ∑ b ∈ s2, F a b c := Finset.sum_comm

theorem sum4_swap {α : Type} [CommRing α] {β γ δ ε : Type}
    (s1 : Finset β) (s2 : Finset γ) (s3 : Finset δ) (s4 : Finset ε)
    (F : β → γ → δ → ε → α) :
    (∑ a ∈ s1, ∑ b ∈ s2, ∑ c ∈ s3, ∑ d ∈ s4, F a b c d) =
      ∑ c ∈ s3, ∑ d ∈ s4, ∑ a ∈ s1, ∑ b ∈ s2, F a b c d :=
  calc (∑ a ∈ s1, ∑ b ∈ s2, ∑ c ∈ s3, ∑ d ∈ s4, F a b c d)
      = ∑ a ∈ s1, ∑ c ∈ s3, ∑ b ∈ s2, ∑ d ∈ s4, F a b c d :=
        Finset.sum_congr rfl fun _ _ => Finset.sum_comm
    _ = ∑ c ∈ s3, ∑ a ∈ s1, ∑ b ∈ s2, ∑ d ∈ s4, F a b c d := Finset.sum_comm
    _ = ∑ c ∈ s3, ∑ a ∈ s1, ∑ d ∈ s4, ∑ b ∈ s2, F a b c d :=
        Finset.sum_congr rfl fun _ _ =>
          Finset.sum_congr rfl fun _ _ => Finset.sum_comm
    _ = ∑ c ∈ s3, ∑ d ∈ s4, ∑ a ∈ s1, ∑ b ∈ s2, F a b c d :=
        Finset.sum_congr rfl fun _ _ => Finset.sum_comm

/-- Collecting an input-weight-style contraction over the flattened
time×batch extent. -/
theorem sum_inn_matW {α : Type} [CommRing α] {n m B : ℕ} (T : ℕ)
    (d : ℕ → Fin B → Fin n → α) (c : ℕ → Fin B → Fin m → α)
    (w : Fin n → Fin m → α) :
    (∑ t ∈ Finset.range T, inn (d t) (fun b k => ∑ j, c t b j * w k j)) =
      ∑ k, ∑ j, (∑ t ∈ Finset.range T, ∑ b, d t b k * c t b j) * w k j :=
  calc (∑ t ∈ Finset.range T, inn (d t) (fun b k => ∑ j, c t b j * w k j))
      = ∑ t ∈ Finset.range T, ∑ b, ∑ k, ∑ j,
          d t b k * (c t b j * w k j) := by
        simp only [inn, Finset.mul_sum]
    _ = ∑ k, ∑ j, ∑ t ∈ Finset.range T, ∑ b,
          d t b k * (c t b j * w k j) :=
        sum4_swap (Finset.range T) Finset.univ Finset.univ Finset.univ _
    _ = ∑ k, ∑ j, (∑ t ∈ Finset.range T, ∑ b, d t b k * c t b j) * w k j := by
        refine Finset.sum_congr rfl fun k _ => Finset.sum_congr rfl fun j _ => ?_
        rw [Finset.sum_mul]
        refine Finset.sum_congr rfl fun t _ => ?_
        rw [Finset.sum_mul]
        exact Finset.sum_congr rfl fun b _ => by ring

/-- Collecting a recurrent-weight-style contraction over the flattened
time×batch extent. -/
theorem sum_inn_matR {α : Type} [CommRing α] {n B : ℕ} (T : ℕ)
    (d : ℕ → Fin B → Fin n → α) (c : ℕ → Fin B → Fin n → α)
    (w : Fin n → Fin n → α) :
    (∑ t ∈ Finset.range T, inn (d t) (fun b k => ∑ j, c t b j * w j k)) =
      ∑ j, ∑ k, (∑ t ∈ Finset.range T, ∑ b, c t b j * d t b k) * w j k :=
  calc (∑ t ∈ Finset.range T, inn (d t) (fun b k => ∑ j, c t b j * w j k))
      = ∑ t ∈ Finset.range T, ∑ b, ∑ k, ∑ j,
          d t b k * (c t b j * w j k) := by
        simp only [inn, Finset.mul_sum]
    _ = ∑ t ∈ Finset.range T, ∑ b, ∑ j, ∑ k,
          d t b k * (c t b j * w j k) := by
        refine Finset.sum_congr rfl fun t _ => Finset.sum_congr rfl fun b _ => ?_
        exact Finset.sum_comm
    _ = ∑ j, ∑ k, ∑ t ∈ Finset.range T, ∑ b,
          d t b k * (c t b j * w j k) :=
        sum4_swap (Finset.range T) Finset.univ Finset.univ Finset.univ _
    _ = ∑ j, ∑ k, (∑ t ∈ Finset.range T, ∑ b, c t b j * d t b k) * w j k := by
        refine Finset.sum_congr rfl fun j _ => Finset.sum_congr rfl fun k _ => ?_
        rw [Finset.sum_mul]
        refine Finset.sum_congr rfl fun t _ => ?_
        rw [Finset.sum_mul]
        exact Finset.sum_congr rfl fun b _ => by ring

/-- Collecting a peephole-weight-style contraction over the flattened
time×batch extent. -/
theorem sum_inn_vec {α : Type} [CommRing α] {n B : ℕ} (T : ℕ)
    (d : ℕ → Fin B → Fin n → α) (c : ℕ → Fin B → Fin n → α)
    (w : Fin n → α) :
    (∑ t ∈ Finset.range T, inn (d t) (fun b k => c t b k * w k)) =
      ∑ k, (∑ t ∈ Finset.range T, ∑ b, c t b k * d t b k) * w k :=
  calc (∑ t ∈ Finset.range T, inn (d t) (fun b k => c t b k * w k))
      = ∑ t ∈ Finset.range T, ∑ b, ∑ k, d t b k * (c t b k * w k) := by
        simp only [inn]
    _ = ∑ k, ∑ t ∈ Finset.range T, ∑ b, d t b k * (c t b k * w k) :=
        sum3_swap (Finset.range T) Finset.univ Finset.univ _
    _ = ∑ k, (∑ t ∈ Finset.range T, ∑ b, c t b k * d t b k) * w k := by
        refine Finset.sum_congr rfl fun k _ => ?_
        rw [Finset.sum_mul]
        refine Finset.sum_congr rfl fun t _ => ?_
        rw [Finset.sum_mul]
        exact Finset.sum_congr rfl fun b _ => by ring

/-- Collecting a bias-style contraction over the flattened time×batch
extent. -/
theorem sum_inn_bias {α : Type} [CommRing α] {n B : ℕ} (T : ℕ)
    (d : ℕ → Fin B → Fin n → α) (w : Fin n → α) :
    (∑ t ∈ Finset.range T, inn (d t) (fun _ k => w k)) =
      ∑ k, (∑ t ∈ Finset.range T, ∑ b, d t b k) * w k :=
  calc (∑ t ∈ Finset.range T, inn (d t) (fun _ k => w k))
      = ∑ t ∈ Finset.range T, ∑ b, ∑ k, d t b k * w k := by
        simp only [inn]
    _ = ∑ k, ∑ t ∈ Finset.range T, ∑ b, d t b k * w k :=
        sum3_swap (Finset.range T) Finset.univ Finset.univ _
    _ = ∑ k, (∑ t ∈ Finset.range T, ∑ b, d t b k) * w k := by
        refine Finset.sum_congr rfl fun k _ => ?_
        rw [Finset.sum_mul]
        refine Finset.sum_congr rfl fun t _ => ?_
        rw [Finset.sum_mul]

/-- A sum whose head term vanishes can start at `1`. -/
theorem head_zero_sum {α : Type} [CommRing α] (f : ℕ → α) (T : ℕ)
    (h0 : f 0 = 0) :
    (∑ t ∈ Finset.Ico 1 T, f t) = ∑ t ∈ Finset.range T, f t := by
  cases T with
  | zero => simp
  | succ N =>
      rw [Finset.range_eq_Ico,
        Finset.sum_eq_sum_Ico_succ_bot (Nat.succ_pos N), h0, zero_add]

/-- C1 invariant: the reverse walk, read upward from the sequence tail,
turns the tail of the tangent-contracted loss into the tail of the injection
contractions plus the two cotangent boundary terms. -/
theorem adjoint_invariant {α : Type} [CommRing α] {n m B : ℕ}
    (p : Params α n m) (g sg : Activation α) (x : ℕ → Fin B → Fin m → α)
    (y0 c0 : Fin B → Fin n → α) (dl : ℕ → Fin B → Fin n → α)
    (inj : ℕ → Inj α B n) (T : ℕ) :
    ∀ i k, k + i = T →
      (∑ t ∈ Finset.Ico k T,
        inn (dl t) ((tangentAt p g sg x y0 c0 inj t).ydot)) =
      (∑ t ∈ Finset.Ico k T,
        injContract (deltaAt p g sg x y0 c0 dl T t) (inj t)) +
        inn (recPull p (deltaAt p g sg x y0 c0 dl T k))
          (ydotPrev p g sg x y0 c0 inj k) +
        inn (cellPull p ((forwardAt p g sg x y0 c0 k).fb)
          (deltaAt p g sg x y0 c0 dl T k))
          (cdotPrev p g sg x y0 c0 inj k) := by
  intro i
  induction i with
  | zero =>
      intro k hk
      have hkT : k = T := by omega
      subst hkT
      rw [Finset.Ico_self, Finset.sum_empty, Finset.sum_empty,
        deltaAt_of_le p g sg x y0 c0 dl le_rfl]
      have h1 : inn (recPull p (zeroDeltas : Deltas α B n))
          (ydotPrev p g sg x y0 c0 inj k) = 0 := by
        refine (inn_congr_left (v := fun _ _ => 0)
          (fun b j => by simp [recPull, zeroDeltas])).trans (inn_zero_left _)
      have h2 : inn (cellPull p ((forwardAt p g sg x y0 c0 k).fb)
          (zeroDeltas : Deltas α B n)) (cdotPrev p g sg x y0 c0 inj k) = 0 := by
        refine (inn_congr_left (v := fun _ _ => 0)
          (fun b j => by simp [cellPull, zeroDeltas])).trans (inn_zero_left _)
      rw [h1, h2]
      ring
  | succ i ih =>
      intro k hk
      have hkT : k < T := by omega
      rw [Finset.sum_eq_sum_Ico_succ_bot hkT,
        Finset.sum_eq_sum_Ico_succ_bot hkT, ih (k + 1) (by omega)]
      linear_combination step_core p g sg x y0 c0 dl inj hkT

/-- C1 adjoint identity: the tangent-contracted loss over the whole sequence
equals the total injection contraction computed by the reverse walk. -/
theorem adjoint_total {α : Type} [CommRing α] {n m B : ℕ}
    (p : Params α n m) (g sg : Activation α) (x : ℕ → Fin B → Fin m → α)
    (y0 c0 : Fin B → Fin n → α) (dl : ℕ → Fin B → Fin n → α)
    (inj : ℕ → Inj α B n) (T : ℕ) :
    (∑ t ∈ Finset.range T,
      inn (dl t) ((tangentAt p g sg x y0 c0 inj t).ydot)) =
    ∑ t ∈ Finset.range T,
      injContract (deltaAt p g sg x y0 c0 dl T t) (inj t) := by
  have h := adjoint_invariant p g sg x y0 c0 dl inj T T 0 (by omega)
  rw [Finset.range_eq_Ico, h]
  have hy : ydotPrev p g sg x y0 c0 inj 0 = fun _ _ => (0 : α) := rfl
  have hc : cdotPrev p g sg x y0 c0 inj 0 = fun _ _ => (0 : α) := rfl
  rw [hy, hc, inn_zero_right, inn_zero_right, add_zero, add_zero]


theorem inn_add4_left {α : Type} [CommRing α] {B n : ℕ}
    (A C D E u : Fin B → Fin n → α) :
    inn (fun b k => A b k + C b k + D b k + E b k) u =
      inn A u + inn C u + inn D u + inn E u := by
  simp [inn, add_mul, Finset.sum_add_distrib]

/-- Collecting the injection contractions of the whole sequence into
per-weight pairings and per-input pairings, generically in the four gate
delta families. -/
theorem collect_contractions {α : Type} [CommRing α] {n m B : ℕ}
    (p : Params α n m) (g sg : Activation α) (x : ℕ → Fin B → Fin m → α)
    (y0 c0 : Fin B → Fin n → α) (u : Params α n m)
    (ux : ℕ → Fin B → Fin m → α) (T : ℕ)
    (dZ dI dF dO : ℕ → Fin B → Fin n → α) :
    (∑ t ∈ Finset.range T,
      (inn (dZ t) (injOf p g sg x y0 c0 u ux t).jza +
        inn (dI t) (injOf p g sg x y0 c0 u ux t).jia +
        inn (dF t) (injOf p g sg x y0 c0 u ux t).jfa +
        inn (dO t) (injOf p g sg x y0 c0 u ux t).joa)) =
    ((∑ k, ∑ j, (∑ t ∈ Finset.range T, ∑ b, dZ t b k * x t b j) * u.Wz k j) +
     (∑ k, ∑ j, (∑ t ∈ Finset.range T, ∑ b, dI t b k * x t b j) * u.Wi k j) +
     (∑ k, ∑ j, (∑ t ∈ Finset.range T, ∑ b, dF t b k * x t b j) * u.Wf k j) +
     (∑ k, ∑ j, (∑ t ∈ Finset.range T, ∑ b, dO t b k * x t b j) * u.Wo k j) +
     (∑ k, (∑ t ∈ Finset.range T, ∑ b,
        prevC p g sg x y0 c0 t b k * dI t b k) * u.Wci k) +
     (∑ k, (∑ t ∈ Finset.range T, ∑ b,
        prevC p g sg x y0 c0 t b k * dF t b k) * u.Wcf k) +
     (∑ k, (∑ t ∈ Finset.range T, ∑ b,
        (forwardAt p g sg x y0 c0 t).ca b k * dO t b k) * u.Wco k) +
     (∑ j, ∑ k, (∑ t ∈ Finset.range T, ∑ b,
        prevY p g sg x y0 c0 t b j * dZ t b k) * u.Rz j k) +
     (∑ j, ∑ k, (∑ t ∈ Finset.range T, ∑ b,
        prevY p g sg x y0 c0 t b j * dI t b k) * u.Ri j k) +
     (∑ j, ∑ k, (∑ t ∈ Finset.range T, ∑ b,
        prevY p g sg x y0 c0 t b j * dF t b k) * u.Rf j k) +
     (∑ j, ∑ k, (∑ t ∈ Finset.range T, ∑ b,
        prevY p g sg x y0 c0 t b j * dO t b k) * u.Ro j k) +
     (∑ k, (∑ t ∈ Finset.range T, ∑ b, dZ t b k) * u.bz k) +
     (∑ k, (∑ t ∈ Finset.range T, ∑ b, dI t b k) * u.bi k) +
     (∑ k, (∑ t ∈ Finset.range T, ∑ b, dF t b k) * u.bf k) +
     (∑ k, (∑ t ∈ Finset.range T, ∑ b, dO t b k) * u.bo k)) +
    (∑ t ∈ Finset.range T,
      inn (fun b j => (∑ k, dI t b k * p.Wi k j) + (∑ k, dF t b k * p.Wf k j) +
        (∑ k, dO t b k * p.Wo k j) + (∑ k, dZ t b k * p.Wz k j)) (ux t)) := by
  have hsplit : ∀ t,
      (inn (dZ t) (injOf p g sg x y0 c0 u ux t).jza +
        inn (dI t) (injOf p g sg x y0 c0 u ux t).jia +
        inn (dF t) (injOf p g sg x y0 c0 u ux t).jfa +
        inn (dO t) (injOf p g sg x y0 c0 u ux t).joa) =
      (inn (dZ t) (fun b k => ∑ j, ux t b j * p.Wz k j) +
        inn (dZ t) (fun b k => ∑ j, x t b j * u.Wz k j) +
        inn (dZ t) (fun b k => ∑ j, prevY p g sg x y0 c0 t b j * u.Rz j k) +
        inn (dZ t) (fun _ k => u.bz k)) +
      (inn (dI t) (fun b k => ∑ j, ux t b j * p.Wi k j) +
        inn (dI t) (fun b k => ∑ j, x t b j * u.Wi k j) +
        inn (dI t) (fun b k => ∑ j, prevY p g sg x y0 c0 t b j * u.Ri j k) +
        inn (dI t) (fun b k => prevC p g sg x y0 c0 t b k * u.Wci k) +
        inn (dI t) (fun _ k => u.bi k)) +
      (inn (dF t) (fun b k => ∑ j, ux t b j * p.Wf k j) +
        inn (dF t) (fun b k => ∑ j, x t b j * u.Wf k j) +
        inn (dF t) (fun b k => ∑ j, prevY p g sg x y0 c0 t b j * u.Rf j k) +
        inn (dF t) (fun b k => prevC p g sg x y0 c0 t b k * u.Wcf k) +
        inn (dF t) (fun _ k => u.bf k)) +
      (inn (dO t) (fun b k => ∑ j, ux t b j * p.Wo k j) +
        inn (dO t) (fun b k => ∑ j, x t b j * u.Wo k j) +
        inn (dO t) (fun b k => ∑ j, prevY p g sg x y0 c0 t b j * u.Ro j k) +
        inn (dO t) (fun b k => (forwardAt p g sg x y0 c0 t).ca b k * u.Wco k) +
        inn (dO t) (fun _ k => u.bo k)) := by
    intro t
    simp only [injOf]
    rw [inn_add4, inn_add5, inn_add5, inn_add5]
  calc (∑ t ∈ Finset.range T,
      (inn (dZ t) (injOf p g sg x y0 c0 u ux t).jza +
        inn (dI t) (injOf p g sg x y0 c0 u ux t).jia +
        inn (dF t) (injOf p g sg x y0 c0 u ux t).jfa +
        inn (dO t) (injOf p g sg x y0 c0 u ux t).joa))
      = (∑ t ∈ Finset.range T, inn (dZ t) (fun b k => ∑ j, ux t b j * p.Wz k j)) +
        (∑ t ∈ Finset.range T, inn (dZ t) (fun b k => ∑ j, x t b j * u.Wz k j)) +
        (∑ t ∈ Finset.range T, inn (dZ t) (fun b k => ∑ j, prevY p g sg x y0 c0 t b j * u.Rz j k)) +
        (∑ t ∈ Finset.range T, inn (dZ t) (fun _ k => u.bz k)) +
        (∑ t ∈ Finset.range T, inn (dI t) (fun b k => ∑ j, ux t b j * p.Wi k j)) +
        (∑ t ∈ Finset.range T, inn (dI t) (fun b k => ∑ j, x t b j * u.Wi k j)) +
        (∑ t ∈ Finset.range T, inn (dI t) (fun b k => ∑ j, prevY p g sg x y0 c0 t b j * u.Ri j k)) +
        (∑ t ∈ Finset.range T, inn (dI t) (fun b k => prevC p g sg x y0 c0 t b k * u.Wci k)) +
        (∑ t ∈ Finset.range T, inn (dI t) (fun _ k => u.bi k)) +
        (∑ t ∈ Finset.range T, inn (dF t) (fun b k => ∑ j, ux t b j * p.Wf k j)) +
        (∑ t ∈ Finset.range T, inn (dF t) (fun b k => ∑ j, x t b j * u.Wf k j)) +
        (∑ t ∈ Finset.range T, inn (dF t) (fun b k => ∑ j, prevY p g sg x y0 c0 t b j * u.Rf j k)) +
        (∑ t ∈ Finset.range T, inn (dF t) (fun b k => prevC p g sg x y0 c0 t b k * u.Wcf k)) +
        (∑ t ∈ Finset.range T, inn (dF t) (fun _ k => u.bf k)) +
        (∑ t ∈ Finset.range T, inn (dO t) (fun b k => ∑ j, ux t b j * p.Wo k j)) +
        (∑ t ∈ Finset.range T, inn (dO t) (fun b k => ∑ j, x t b j * u.Wo k j)) +
        (∑ t ∈ Finset.range T, inn (dO t) (fun b k => ∑ j, prevY p g sg x y0 c0 t b j * u.Ro j k)) +
        (∑ t ∈ Finset.range T, inn (dO t) (fun b k => (forwardAt p g sg x y0 c0 t).ca b k * u.Wco k)) +
        (∑ t ∈ Finset.range T, inn (dO t) (fun _ k => u.bo k)) := by
        rw [Finset.sum_congr rfl fun t _ => hsplit t]
        simp only [Finset.sum_add_distrib]
        ring
    _ = _ := by
      rw [sum_inn_matW T dZ x u.Wz, sum_inn_matW T dI x u.Wi,
        sum_inn_matW T dF x u.Wf, sum_inn_matW T dO x u.Wo,
        sum_inn_matR T dZ (fun t => prevY p g sg x y0 c0 t) u.Rz,
        sum_inn_matR T dI (fun t => prevY p g sg x y0 c0 t) u.Ri,
        sum_inn_matR T dF (fun t => prevY p g sg x y0 c0 t) u.Rf,
        sum_inn_matR T dO (fun t => prevY p g sg x y0 c0 t) u.Ro,
        sum_inn_vec T dI (fun t => prevC p g sg x y0 c0 t) u.Wci,
        sum_inn_vec T dF (fun t => prevC p g sg x y0 c0 t) u.Wcf,
        sum_inn_vec T dO (fun t => (forwardAt p g sg x y0 c0 t).ca) u.Wco,
        sum_inn_bias T dZ u.bz, sum_inn_bias T dI u.bi,
        sum_inn_bias T dF u.bf, sum_inn_bias T dO u.bo]
      have hpushZ : ∀ t, inn (dZ t) (fun b k => ∑ j, ux t b j * p.Wz k j) =
          inn (fun b j => ∑ k, dZ t b k * p.Wz k j) (ux t) := fun t =>
        inn_push p.Wz (dZ t) (ux t)
      have hpushI : ∀ t, inn (dI t) (fun b k => ∑ j, ux t b j * p.Wi k j) =
          inn (fun b j => ∑ k, dI t b k * p.Wi k j) (ux t) := fun t =>
        inn_push p.Wi (dI t) (ux t)
      have hpushF : ∀ t, inn (dF t) (fun b k => ∑ j, ux t b j * p.Wf k j) =
          inn (fun b j => ∑ k, dF t b k * p.Wf k j) (ux t) := fun t =>
        inn_push p.Wf (dF t) (ux t)
      have hpushO : ∀ t, inn (dO t) (fun b k => ∑ j, ux t b j * p.Wo k j) =
          inn (fun b j => ∑ k, dO t b k * p.Wo k j) (ux t) := fun t =>
        inn_push p.Wo (dO t) (ux t)
      rw [Finset.sum_congr rfl fun t _ => hpushZ t,
        Finset.sum_congr rfl fun t _ => hpushI t,
        Finset.sum_congr rfl fun t _ => hpushF t,
        Finset.sum_congr rfl fun t _ => hpushO t]
      have hmerge : (∑ t ∈ Finset.range T,
          inn (fun b j => ∑ k, dI t b k * p.Wi k j) (ux t)) +
          (∑ t ∈ Finset.range T,
            inn (fun b j => ∑ k, dF t b k * p.Wf k j) (ux t)) +
          (∑ t ∈ Finset.range T,
            inn (fun b j => ∑ k, dO t b k * p.Wo k j) (ux t)) +
          (∑ t ∈ Finset.range T,
            inn (fun b j => ∑ k, dZ t b k * p.Wz k j) (ux t)) =
          ∑ t ∈ Finset.range T,
            inn (fun b j => (∑ k, dI t b k * p.Wi k j) +
              (∑ k, dF t b k * p.Wf k j) + (∑ k, dO t b k * p.Wo k j) +
              (∑ k, dZ t b k * p.Wz k j)) (ux t) := by
        rw [← Finset.sum_add_distrib, ← Finset.sum_add_distrib,
          ← Finset.sum_add_distrib]
        exact Finset.sum_congr rfl fun t _ =>
          (inn_add4_left (fun b j => ∑ k, dI t b k * p.Wi k j)
            (fun b j => ∑ k, dF t b k * p.Wf k j)
            (fun b j => ∑ k, dO t b k * p.Wo k j)
            (fun b j => ∑ k, dZ t b k * p.Wz k j) (ux t)).symm
      linear_combination hmerge


/-- C1 algebraic master theorem: over any commutative ring, the directional
derivative data propagated by the tangent recursion, contracted against the
output deltas, equals the `backward_pass` gradient increments paired with the
parameter direction plus the input-delta increments paired with the input
direction.  The zero context seeds match the zero-initialized context slots
of the real network. -/
theorem backward_gradients_directional {α : Type} [CommRing α] {n m B : ℕ}
    (p : Params α n m) (g sg : Activation α) (x : ℕ → Fin B → Fin m → α)
    (dl : ℕ → Fin B → Fin n → α) (u : Params α n m)
    (ux : ℕ → Fin B → Fin m → α) (T : ℕ) :
    (∑ t ∈ Finset.range T, inn (dl t)
      ((tangentAt p g sg x (fun _ _ => 0) (fun _ _ => 0)
        (injOf p g sg x (fun _ _ => 0) (fun _ _ => 0) u ux) t).ydot)) =
    paramInner (backward_gradients p g sg x (fun _ _ => 0) (fun _ _ => 0)
      dl T) u +
    ∑ t ∈ Finset.range T, inn
      (backward_input_deltas p g sg x (fun _ _ => 0) (fun _ _ => 0) dl T t)
      (ux t) := by
  refine (adjoint_total p g sg x (fun _ _ => 0) (fun _ _ => 0) dl
    (injOf p g sg x (fun _ _ => 0) (fun _ _ => 0) u ux) T).trans ?_
  refine Eq.trans (collect_contractions p g sg x (fun _ _ => 0)
    (fun _ _ => 0) u ux T
    (fun t => (deltaAt p g sg x (fun _ _ => 0) (fun _ _ => 0) dl T t).dZa)
    (fun t => (deltaAt p g sg x (fun _ _ => 0) (fun _ _ => 0) dl T t).dIa)
    (fun t => (deltaAt p g sg x (fun _ _ => 0) (fun _ _ => 0) dl T t).dFa)
    (fun t => (deltaAt p g sg x (fun _ _ => 0) (fun _ _ => 0) dl T t).dOa)) ?_
  beta_reduce
  have hbWci : (∑ k, (∑ t ∈ Finset.range T, ∑ b,
      prevC p g sg x (fun _ _ => 0) (fun _ _ => 0) t b k *
        (deltaAt p g sg x (fun _ _ => 0) (fun _ _ => 0) dl T t).dIa b k) *
      u.Wci k) =
      ∑ k, (backward_gradients p g sg x (fun _ _ => 0) (fun _ _ => 0)
        dl T).Wci k * u.Wci k := by
    refine Finset.sum_congr rfl fun k _ => ?_
    congr 1
    show _ = (∑ t ∈ Finset.Ico 1 T, ∑ b,
        prevC p g sg x (fun _ _ => 0) (fun _ _ => 0) t b k *
          (deltaAt p g sg x (fun _ _ => 0) (fun _ _ => 0) dl T t).dIa b k) +
      ∑ b, dCaContext b k *
        (deltaAt p g sg x (fun _ _ => 0) (fun _ _ => 0) dl T 0).dIa b k
    rw [show (∑ b, dCaContext b k *
        (deltaAt p g sg x (fun _ _ => 0) (fun _ _ => 0) dl T 0).dIa b k) =
        (0 : α) from by simp [dCaContext], add_zero]
    exact (head_zero_sum _ T (by simp [prevC])).symm
  have hbWcf : (∑ k, (∑ t ∈ Finset.range T, ∑ b,
      prevC p g sg x (fun _ _ => 0) (fun _ _ => 0) t b k *
        (deltaAt p g sg x (fun _ _ => 0) (fun _ _ => 0) dl T t).dFa b k) *
      u.Wcf k) =
      ∑ k, (backward_gradients p g sg x (fun _ _ => 0) (fun _ _ => 0)
        dl T).Wcf k * u.Wcf k := by
    refine Finset.sum_congr rfl fun k _ => ?_
    congr 1
    show _ = (∑ t ∈ Finset.Ico 1 T, ∑ b,
        prevC p g sg x (fun _ _ => 0) (fun _ _ => 0) t b k *
          (deltaAt p g sg x (fun _ _ => 0) (fun _ _ => 0) dl T t).dFa b k) +
      ∑ b, dCaContext b k *
        (deltaAt p g sg x (fun _ _ => 0) (fun _ _ => 0) dl T 0).dIa b k
    rw [show (∑ b, dCaContext b k *
        (deltaAt p g sg x (fun _ _ => 0) (fun _ _ => 0) dl T 0).dIa b k) =
        (0 : α) from by simp [dCaContext], add_zero]
    exact (head_zero_sum _ T (by simp [prevC])).symm
  have hbRz : (∑ j, ∑ k, (∑ t ∈ Finset.range T, ∑ b,
      prevY p g sg x (fun _ _ => 0) (fun _ _ => 0) t b j *
        (deltaAt p g sg x (fun _ _ => 0) (fun _ _ => 0) dl T t).dZa b k) *
      u.Rz j k) =
      ∑ j, ∑ k, (backward_gradients p g sg x (fun _ _ => 0) (fun _ _ => 0)
        dl T).Rz j k * u.Rz j k := by
    refine Finset.sum_congr rfl fun j _ => Finset.sum_congr rfl fun k _ => ?_
    congr 1
    show _ = (∑ t ∈ Finset.Ico 1 T, ∑ b,
        prevY p g sg x (fun _ _ => 0) (fun _ _ => 0) t b j *
          (deltaAt p g sg x (fun _ _ => 0) (fun _ _ => 0) dl T t).dZa b k) +
      ∑ b, dyContext b j *
        (deltaAt p g sg x (fun _ _ => 0) (fun _ _ => 0) dl T 0).dZa b k
    rw [show (∑ b, dyContext b j *
        (deltaAt p g sg x (fun _ _ => 0) (fun _ _ => 0) dl T 0).dZa b k) =
        (0 : α) from by simp [dyContext], add_zero]
    exact (head_zero_sum _ T (by simp [prevY])).symm
  have hbRi : (∑ j, ∑ k, (∑ t ∈ Finset.range T, ∑ b,
      prevY p g sg x (fun _ _ => 0) (fun _ _ => 0) t b j *
        (deltaAt p g sg x (fun _ _ => 0) (fun _ _ => 0) dl T t).dIa b k) *
      u.Ri j k) =
      ∑ j, ∑ k, (backward_gradients p g sg x (fun _ _ => 0) (fun _ _ => 0)
        dl T).Ri j k * u.Ri j k := by
    refine Finset.sum_congr rfl fun j _ => Finset.sum_congr rfl fun k _ => ?_
    congr 1
    show _ = (∑ t ∈ Finset.Ico 1 T, ∑ b,
        prevY p g sg x (fun _ _ => 0) (fun _ _ => 0) t b j *
          (deltaAt p g sg x (fun _ _ => 0) (fun _ _ => 0) dl T t).dIa b k) +
      ∑ b, dyContext b j *
        (deltaAt p g sg x (fun _ _ => 0) (fun _ _ => 0) dl T 0).dIa b k
    rw [show (∑ b, dyContext b j *
        (deltaAt p g sg x (fun _ _ => 0) (fun _ _ => 0) dl T 0).dIa b k) =
        (0 : α) from by simp [dyContext], add_zero]
    exact (head_zero_sum _ T (by simp [prevY])).symm
  have hbRf : (∑ j, ∑ k, (∑ t ∈ Finset.range T, ∑ b,
      prevY p g sg x (fun _ _ => 0) (fun _ _ => 0) t b j *
        (deltaAt p g sg x (fun _ _ => 0) (fun _ _ => 0) dl T t).dFa b k) *
      u.Rf j k) =
      ∑ j, ∑ k, (backward_gradients p g sg x (fun _ _ => 0) (fun _ _ => 0)
        dl T).Rf j k * u.Rf j k := by
    refine Finset.sum_congr rfl fun j _ => Finset.sum_congr rfl fun k _ => ?_
    congr 1
    show _ = (∑ t ∈ Finset.Ico 1 T, ∑ b,
        prevY p g sg x (fun _ _ => 0) (fun _ _ => 0) t b j *
          (deltaAt p g sg x (fun _ _ => 0) (fun _ _ => 0) dl T t).dFa b k) +
      ∑ b, dyContext b j *
        (deltaAt p g sg x (fun _ _ => 0) (fun _ _ => 0) dl T 0).dFa b k
    rw [show (∑ b, dyContext b j *
        (deltaAt p g sg x (fun _ _ => 0) (fun _ _ => 0) dl T 0).dFa b k) =
        (0 : α) from by simp [dyContext], add_zero]
    exact (head_zero_sum _ T (by simp [prevY])).symm
  have hbRo : (∑ j, ∑ k, (∑ t ∈ Finset.range T, ∑ b,
      prevY p g sg x (fun _ _ => 0) (fun _ _ => 0) t b j *
        (deltaAt p g sg x (fun _ _ => 0) (fun _ _ => 0) dl T t).dOa b k) *
      u.Ro j k) =
      ∑ j, ∑ k, (backward_gradients p g sg x (fun _ _ => 0) (fun _ _ => 0)
        dl T).Ro j k * u.Ro j k := by
    refine Finset.sum_congr rfl fun j _ => Finset.sum_congr rfl fun k _ => ?_
    congr 1
    show _ = (∑ t ∈ Finset.Ico 1 T, ∑ b,
        prevY p g sg x (fun _ _ => 0) (fun _ _ => 0) t b j *
          (deltaAt p g sg x (fun _ _ => 0) (fun _ _ => 0) dl T t).dOa b k) +
      ∑ b, dyContext b j *
        (deltaAt p g sg x (fun _ _ => 0) (fun _ _ => 0) dl T 0).dOa b k
    rw [show (∑ b, dyContext b j *
        (deltaAt p g sg x (fun _ _ => 0) (fun _ _ => 0) dl T 0).dOa b k) =
        (0 : α) from by simp [dyContext], add_zero]
    exact (head_zero_sum _ T (by simp [prevY])).symm
  rw [hbWci, hbWcf, hbRz, hbRi, hbRf, hbRo]
  rfl

/-! ## Analytic layer: the tangent recursion is the true derivative -/

/-- The backend sigmoid is differentiable everywhere with exactly the
derivative its derivative-given-output form `y * (1 - y)` reports. -/
theorem sigmoidAct_valid : sigmoidAct.Valid := by
  intro v
  have h0 : (0 : ℝ) < 1 + Real.exp (-v) := by positivity
  have hexp : HasDerivAt (fun w : ℝ => 1 + Real.exp (-w))
      (-Real.exp (-v)) v := by
    have h := (((hasDerivAt_id v).neg).exp).const_add (1 : ℝ)
    exact h.congr_deriv (by simp)
  have h := hexp.inv (ne_of_gt h0)
  exact h.congr_deriv (by
    show -(-Real.exp (-v)) / (1 + Real.exp (-v)) ^ 2 =
      (1 + Real.exp (-v))⁻¹ * (1 - (1 + Real.exp (-v))⁻¹)
    have hne : (1 + Real.exp (-v)) ≠ 0 := ne_of_gt h0
    field_simp
    ring)

/-- The `linear` activation is differentiable with derivative `1`. -/
theorem linearAct_valid : (linearAct ℝ).Valid := fun v => hasDerivAt_id v

/-- Chain rule through one `forwardStep` along a differentiable family of
parameters, inputs and previous states: the output and the new cell state
have the derivatives given by one `tangentStep`. -/
theorem forwardStep_hasDerivAt {n m B : ℕ} (g sg : Activation ℝ)
    (hg : g.Valid) (hsg : sg.Valid) (P : ℝ → Params ℝ n m)
    (u : Params ℝ n m) (v0 : ℝ) (hP : HasParamsDerivAt P u v0)
    (xp : ℝ → Fin B → Fin m → ℝ) (xu : Fin B → Fin m → ℝ)
    (hx : ∀ b j, HasDerivAt (fun w => xp w b j) (xu b j) v0)
    (yp : ℝ → Fin B → Fin n → ℝ) (yd : Fin B → Fin n → ℝ)
    (hyp : ∀ b k, HasDerivAt (fun w => yp w b k) (yd b k) v0)
    (cpp : ℝ → Fin B → Fin n → ℝ) (cd : Fin B → Fin n → ℝ)
    (hcp : ∀ b k, HasDerivAt (fun w => cpp w b k) (cd b k) v0)
    (inj1 : Inj ℝ B n)
    (hjza : ∀ b k, inj1.jza b k = (∑ j, xu b j * (P v0).Wz k j) +
      (∑ j, xp v0 b j * u.Wz k j) + (∑ j, yp v0 b j * u.Rz j k) + u.bz k)
    (hjia : ∀ b k, inj1.jia b k = (∑ j, xu b j * (P v0).Wi k j) +
      (∑ j, xp v0 b j * u.Wi k j) + (∑ j, yp v0 b j * u.Ri j k) +
      cpp v0 b k * u.Wci k + u.bi k)
    (hjfa : ∀ b k, inj1.jfa b k = (∑ j, xu b j * (P v0).Wf k j) +
      (∑ j, xp v0 b j * u.Wf k j) + (∑ j, yp v0 b j * u.Rf j k) +
      cpp v0 b k * u.Wcf k + u.bf k)
    (hjoa : ∀ b k, inj1.joa b k = (∑ j, xu b j * (P v0).Wo k j) +
      (∑ j, xp v0 b j * u.Wo k j) + (∑ j, yp v0 b j * u.Ro j k) +
      (forwardStep (P v0) g sg (xp v0) (yp v0) (cpp v0)).ca b k * u.Wco k +
      u.bo k) :
    ∀ b k,
      HasDerivAt
        (fun w => (forwardStep (P w) g sg (xp w) (yp w) (cpp w)).y b k)
        ((tangentStep (P v0) g sg
          (forwardStep (P v0) g sg (xp v0) (yp v0) (cpp v0)) (cpp v0)
          inj1 yd cd).ydot b k) v0 ∧
      HasDerivAt
        (fun w => (forwardStep (P w) g sg (xp w) (yp w) (cpp w)).ca b k)
        ((tangentStep (P v0) g sg
          (forwardStep (P v0) g sg (xp v0) (yp v0) (cpp v0)) (cpp v0)
          inj1 yd cd).cdot b k) v0 := by
  intro b k
  have hza : HasDerivAt
      (fun w => (forwardStep (P w) g sg (xp w) (yp w) (cpp w)).za b k)
      ((tangentStep (P v0) g sg
        (forwardStep (P v0) g sg (xp v0) (yp v0) (cpp v0)) (cpp v0)
        inj1 yd cd).zadot b k) v0 := by
    have h1 : HasDerivAt (fun w => ∑ j, xp w b j * (P w).Wz k j)
        (∑ j, (xu b j * (P v0).Wz k j + xp v0 b j * u.Wz k j)) v0 :=
      HasDerivAt.sum fun j _ => (hx b j).mul (hP.hWz k j)
    have h2 : HasDerivAt (fun w => ∑ j, yp w b j * (P w).Rz j k)
        (∑ j, (yd b j * (P v0).Rz j k + yp v0 b j * u.Rz j k)) v0 :=
      HasDerivAt.sum fun j _ => (hyp b j).mul (hP.hRz j k)
    have h := (h1.add h2).add (hP.hbz k)
    exact h.congr_deriv (by
      show (∑ j, (xu b j * (P v0).Wz k j + xp v0 b j * u.Wz k j)) +
          (∑ j, (yd b j * (P v0).Rz j k + yp v0 b j * u.Rz j k)) + u.bz k =
        inj1.jza b k + ∑ j, yd b j * (P v0).Rz j k
      rw [hjza, Finset.sum_add_distrib, Finset.sum_add_distrib]
      ring)
  have hzb : HasDerivAt
      (fun w => (forwardStep (P w) g sg (xp w) (yp w) (cpp w)).zb b k)
      (g.d ((forwardStep (P v0) g sg (xp v0) (yp v0) (cpp v0)).zb b k) *
        (tangentStep (P v0) g sg
          (forwardStep (P v0) g sg (xp v0) (yp v0) (cpp v0)) (cpp v0)
          inj1 yd cd).zadot b k) v0 :=
    (hg ((forwardStep (P v0) g sg (xp v0) (yp v0) (cpp v0)).za b k)).comp
      v0 hza
  have hia : HasDerivAt
      (fun w => (forwardStep (P w) g sg (xp w) (yp w) (cpp w)).ia b k)
      ((tangentStep (P v0) g sg
        (forwardStep (P v0) g sg (xp v0) (yp v0) (cpp v0)) (cpp v0)
        inj1 yd cd).iadot b k) v0 := by
    have h1 : HasDerivAt (fun w => ∑ j, xp w b j * (P w).Wi k j)
        (∑ j, (xu b j * (P v0).Wi k j + xp v0 b j * u.Wi k j)) v0 :=
      HasDerivAt.sum fun j _ => (hx b j).mul (hP.hWi k j)
    have h2 : HasDerivAt (fun w => ∑ j, yp w b j * (P w).Ri j k)
        (∑ j, (yd b j * (P v0).Ri j k + yp v0 b j * u.Ri j k)) v0 :=
      HasDerivAt.sum fun j _ => (hyp b j).mul (hP.hRi j k)
    have h := ((h1.add h2).add ((hcp b k).mul (hP.hWci k))).add (hP.hbi k)
    exact h.congr_deriv (by
      show (∑ j, (xu b j * (P v0).Wi k j + xp v0 b j * u.Wi k j)) +
          (∑ j, (yd b j * (P v0).Ri j k + yp v0 b j * u.Ri j k)) +
          (cd b k * (P v0).Wci k + cpp v0 b k * u.Wci k) + u.bi k =
        inj1.jia b k + (∑ j, yd b j * (P v0).Ri j k) +
          cd b k * (P v0).Wci k
      rw [hjia, Finset.sum_add_distrib, Finset.sum_add_distrib]
      ring)
  have hib : HasDerivAt
      (fun w => (forwardStep (P w) g sg (xp w) (yp w) (cpp w)).ib b k)
      (sg.d ((forwardStep (P v0) g sg (xp v0) (yp v0) (cpp v0)).ib b k) *
        (tangentStep (P v0) g sg
          (forwardStep (P v0) g sg (xp v0) (yp v0) (cpp v0)) (cpp v0)
          inj1 yd cd).iadot b k) v0 :=
    (hsg ((forwardStep (P v0) g sg (xp v0) (yp v0) (cpp v0)).ia b k)).comp
      v0 hia
  have hfa : HasDerivAt
      (fun w => (forwardStep (P w) g sg (xp w) (yp w) (cpp w)).fa b k)
      ((tangentStep (P v0) g sg
        (forwardStep (P v0) g sg (xp v0) (yp v0) (cpp v0)) (cpp v0)
        inj1 yd cd).fadot b k) v0 := by
    have h1 : HasDerivAt (fun w => ∑ j, xp w b j * (P w).Wf k j)
        (∑ j, (xu b j * (P v0).Wf k j + xp v0 b j * u.Wf k j)) v0 :=
      HasDerivAt.sum fun j _ => (hx b j).mul (hP.hWf k j)
    have h2 : HasDerivAt (fun w => ∑ j, yp w b j * (P w).Rf j k)
        (∑ j, (yd b j * (P v0).Rf j k + yp v0 b j * u.Rf j k)) v0 :=
      HasDerivAt.sum fun j _ => (hyp b j).mul (hP.hRf j k)
    have h := ((h1.add h2).add ((hcp b k).mul (hP.hWcf k))).add (hP.hbf k)
    exact h.congr_deriv (by
      show (∑ j, (xu b j * (P v0).Wf k j + xp v0 b j * u.Wf k j)) +
          (∑ j, (yd b j * (P v0).Rf j k + yp v0 b j * u.Rf j k)) +
          (cd b k * (P v0).Wcf k + cpp v0 b k * u.Wcf k) + u.bf k =
        inj1.jfa b k + (∑ j, yd b j * (P v0).Rf j k) +
          cd b k * (P v0).Wcf k
      rw [hjfa, Finset.sum_add_distrib, Finset.sum_add_distrib]
      ring)
  have hfb : HasDerivAt
      (fun w => (forwardStep (P w) g sg (xp w) (yp w) (cpp w)).fb b k)
      (sg.d ((forwardStep (P v0) g sg (xp v0) (yp v0) (cpp v0)).fb b k) *
        (tangentStep (P v0) g sg
          (forwardStep (P v0) g sg (xp v0) (yp v0) (cpp v0)) (cpp v0)
          inj1 yd cd).fadot b k) v0 :=
    (hsg ((forwardStep (P v0) g sg (xp v0) (yp v0) (cpp v0)).fa b k)).comp
      v0 hfa
  have hca : HasDerivAt
      (fun w => (forwardStep (P w) g sg (xp w) (yp w) (cpp w)).ca b k)
      ((tangentStep (P v0) g sg
        (forwardStep (P v0) g sg (xp v0) (yp v0) (cpp v0)) (cpp v0)
        inj1 yd cd).cdot b k) v0 := by
    have h := (hib.mul hzb).add (hfb.mul (hcp b k))
    exact h.congr_deriv (by
      show (sg.d ((forwardStep (P v0) g sg (xp v0) (yp v0) (cpp v0)).ib b k) *
            (tangentStep (P v0) g sg
              (forwardStep (P v0) g sg (xp v0) (yp v0) (cpp v0)) (cpp v0)
              inj1 yd cd).iadot b k *
            (forwardStep (P v0) g sg (xp v0) (yp v0) (cpp v0)).zb b k +
          (forwardStep (P v0) g sg (xp v0) (yp v0) (cpp v0)).ib b k *
            (g.d ((forwardStep (P v0) g sg (xp v0) (yp v0) (cpp v0)).zb b k) *
              (tangentStep (P v0) g sg
                (forwardStep (P v0) g sg (xp v0) (yp v0) (cpp v0)) (cpp v0)
                inj1 yd cd).zadot b k)) +
          (sg.d ((forwardStep (P v0) g sg (xp v0) (yp v0) (cpp v0)).fb b k) *
            (tangentStep (P v0) g sg
              (forwardStep (P v0) g sg (xp v0) (yp v0) (cpp v0)) (cpp v0)
              inj1 yd cd).fadot b k *
            cpp v0 b k +
          (forwardStep (P v0) g sg (xp v0) (yp v0) (cpp v0)).fb b k *
            cd b k) =
        ((tangentStep (P v0) g sg
            (forwardStep (P v0) g sg (xp v0) (yp v0) (cpp v0)) (cpp v0)
            inj1 yd cd).iadot b k *
          sg.d ((forwardStep (P v0) g sg (xp v0) (yp v0) (cpp v0)).ib b k)) *
          (forwardStep (P v0) g sg (xp v0) (yp v0) (cpp v0)).zb b k +
        (forwardStep (P v0) g sg (xp v0) (yp v0) (cpp v0)).ib b k *
          ((tangentStep (P v0) g sg
            (forwardStep (P v0) g sg (xp v0) (yp v0) (cpp v0)) (cpp v0)
            inj1 yd cd).zadot b k *
            g.d ((forwardStep (P v0) g sg (xp v0) (yp v0) (cpp v0)).zb b k)) +
        ((tangentStep (P v0) g sg
            (forwardStep (P v0) g sg (xp v0) (yp v0) (cpp v0)) (cpp v0)
            inj1 yd cd).fadot b k *
          sg.d ((forwardStep (P v0) g sg (xp v0) (yp v0) (cpp v0)).fb b k)) *
          cpp v0 b k +
        (forwardStep (P v0) g sg (xp v0) (yp v0) (cpp v0)).fb b k * cd b k
      ring)
  have hoa : HasDerivAt
      (fun w => (forwardStep (P w) g sg (xp w) (yp w) (cpp w)).oa b k)
      ((tangentStep (P v0) g sg
        (forwardStep (P v0) g sg (xp v0) (yp v0) (cpp v0)) (cpp v0)
        inj1 yd cd).oadot b k) v0 := by
    have h1 : HasDerivAt (fun w => ∑ j, xp w b j * (P w).Wo k j)
        (∑ j, (xu b j * (P v0).Wo k j + xp v0 b j * u.Wo k j)) v0 :=
      HasDerivAt.sum fun j _ => (hx b j).mul (hP.hWo k j)
    have h2 : HasDerivAt (fun w => ∑ j, yp w b j * (P w).Ro j k)
        (∑ j, (yd b j * (P v0).Ro j k + yp v0 b j * u.Ro j k)) v0 :=
      HasDerivAt.sum fun j _ => (hyp b j).mul (hP.hRo j k)
    have h := ((h1.add h2).add (hca.mul (hP.hWco k))).add (hP.hbo k)
    exact h.congr_deriv (by
      show (∑ j, (xu b j * (P v0).Wo k j + xp v0 b j * u.Wo k j)) +
          (∑ j, (yd b j * (P v0).Ro j k + yp v0 b j * u.Ro j k)) +
          ((tangentStep (P v0) g sg
            (forwardStep (P v0) g sg (xp v0) (yp v0) (cpp v0)) (cpp v0)
            inj1 yd cd).cdot b k * (P v0).Wco k +
            (forwardStep (P v0) g sg (xp v0) (yp v0) (cpp v0)).ca b k *
              u.Wco k) + u.bo k =
        inj1.joa b k + (∑ j, yd b j * (P v0).Ro j k) +
          (tangentStep (P v0) g sg
            (forwardStep (P v0) g sg (xp v0) (yp v0) (cpp v0)) (cpp v0)
            inj1 yd cd).cdot b k * (P v0).Wco k
      rw [hjoa, Finset.sum_add_distrib, Finset.sum_add_distrib]
      ring)
  have hob : HasDerivAt
      (fun w => (forwardStep (P w) g sg (xp w) (yp w) (cpp w)).ob b k)
      (sg.d ((forwardStep (P v0) g sg (xp v0) (yp v0) (cpp v0)).ob b k) *
        (tangentStep (P v0) g sg
          (forwardStep (P v0) g sg (xp v0) (yp v0) (cpp v0)) (cpp v0)
          inj1 yd cd).oadot b k) v0 :=
    (hsg ((forwardStep (P v0) g sg (xp v0) (yp v0) (cpp v0)).oa b k)).comp
      v0 hoa
  have hcb : HasDerivAt
      (fun w => (forwardStep (P w) g sg (xp w) (yp w) (cpp w)).cb b k)
      (g.d ((forwardStep (P v0) g sg (xp v0) (yp v0) (cpp v0)).cb b k) *
        (tangentStep (P v0) g sg
          (forwardStep (P v0) g sg (xp v0) (yp v0) (cpp v0)) (cpp v0)
          inj1 yd cd).cdot b k) v0 :=
    (hg ((forwardStep (P v0) g sg (xp v0) (yp v0) (cpp v0)).ca b k)).comp
      v0 hca
  have hy : HasDerivAt
      (fun w => (forwardStep (P w) g sg (xp w) (yp w) (cpp w)).y b k)
      ((tangentStep (P v0) g sg
        (forwardStep (P v0) g sg (xp v0) (yp v0) (cpp v0)) (cpp v0)
        inj1 yd cd).ydot b k) v0 := by
    have h := hob.mul hcb
    exact h.congr_deriv (by
      show sg.d ((forwardStep (P v0) g sg (xp v0) (yp v0) (cpp v0)).ob b k) *
          (tangentStep (P v0) g sg
            (forwardStep (P v0) g sg (xp v0) (yp v0) (cpp v0)) (cpp v0)
            inj1 yd cd).oadot b k *
          (forwardStep (P v0) g sg (xp v0) (yp v0) (cpp v0)).cb b k +
          (forwardStep (P v0) g sg (xp v0) (yp v0) (cpp v0)).ob b k *
          (g.d ((forwardStep (P v0) g sg (xp v0) (yp v0) (cpp v0)).cb b k) *
            (tangentStep (P v0) g sg
              (forwardStep (P v0) g sg (xp v0) (yp v0) (cpp v0)) (cpp v0)
              inj1 yd cd).cdot b k) =
        ((tangentStep (P v0) g sg
            (forwardStep (P v0) g sg (xp v0) (yp v0) (cpp v0)) (cpp v0)
            inj1 yd cd).oadot b k *
          sg.d ((forwardStep (P v0) g sg (xp v0) (yp v0) (cpp v0)).ob b k)) *
          (forwardStep (P v0) g sg (xp v0) (yp v0) (cpp v0)).cb b k +
        (forwardStep (P v0) g sg (xp v0) (yp v0) (cpp v0)).ob b k *
          (g.d ((forwardStep (P v0) g sg (xp v0) (yp v0) (cpp v0)).cb b k) *
            (tangentStep (P v0) g sg
              (forwardStep (P v0) g sg (xp v0) (yp v0) (cpp v0)) (cpp v0)
              inj1 yd cd).cdot b k)
      ring)
  exact ⟨hy, hca⟩

/-- The full forward walk is differentiable in the family parameter, with
the derivatives of the output and cell-state slices given by the tangent
recursion seeded with the `injOf` injection terms (zero context seeds, as
in the real network). -/
theorem forwardAt_hasDerivAt {n m B : ℕ} (g sg : Activation ℝ)
    (hg : g.Valid) (hsg : sg.Valid) (P : ℝ → Params ℝ n m)
    (u : Params ℝ n m) (v0 : ℝ) (hP : HasParamsDerivAt P u v0)
    (X : ℝ → ℕ → Fin B → Fin m → ℝ) (ux : ℕ → Fin B → Fin m → ℝ)
    (hX : HasInputDerivAt X ux v0) :
    ∀ t b k,
      HasDerivAt
        (fun w =>
          (forwardAt (P w) g sg (X w) (fun _ _ => 0) (fun _ _ => 0) t).y b k)
        ((tangentAt (P v0) g sg (X v0) (fun _ _ => 0) (fun _ _ => 0)
          (injOf (P v0) g sg (X v0) (fun _ _ => 0) (fun _ _ => 0) u ux)
          t).ydot b k) v0 ∧
      HasDerivAt
        (fun w =>
          (forwardAt (P w) g sg (X w) (fun _ _ => 0) (fun _ _ => 0) t).ca b k)
        ((tangentAt (P v0) g sg (X v0) (fun _ _ => 0) (fun _ _ => 0)
          (injOf (P v0) g sg (X v0) (fun _ _ => 0) (fun _ _ => 0) u ux)
          t).cdot b k) v0 := by
  intro t
  induction t with
  | zero =>
      intro b k
      exact forwardStep_hasDerivAt g sg hg hsg P u v0 hP
        (fun w => X w 0) (ux 0) (fun b j => hX 0 b j)
        (fun _ _ _ => 0) (fun _ _ => 0) (fun b k => hasDerivAt_const v0 0)
        (fun _ _ _ => 0) (fun _ _ => 0) (fun b k => hasDerivAt_const v0 0)
        (injOf (P v0) g sg (X v0) (fun _ _ => 0) (fun _ _ => 0) u ux 0)
        (fun b k => rfl) (fun b k => rfl) (fun b k => rfl) (fun b k => rfl)
        b k
  | succ t ih =>
      intro b k
      exact forwardStep_hasDerivAt g sg hg hsg P u v0 hP
        (fun w => X w (t + 1)) (ux (t + 1)) (fun b j => hX (t + 1) b j)
        (fun w =>
          (forwardAt (P w) g sg (X w) (fun _ _ => 0) (fun _ _ => 0) t).y)
        ((tangentAt (P v0) g sg (X v0) (fun _ _ => 0) (fun _ _ => 0)
          (injOf (P v0) g sg (X v0) (fun _ _ => 0) (fun _ _ => 0) u ux)
          t).ydot)
        (fun b k => (ih b k).1)
        (fun w =>
          (forwardAt (P w) g sg (X w) (fun _ _ => 0) (fun _ _ => 0) t).ca)
        ((tangentAt (P v0) g sg (X v0) (fun _ _ => 0) (fun _ _ => 0)
          (injOf (P v0) g sg (X v0) (fun _ _ => 0) (fun _ _ => 0) u ux)
          t).cdot)
        (fun b k => (ih b k).2)
        (injOf (P v0) g sg (X v0) (fun _ _ => 0) (fun _ _ => 0) u ux (t + 1))
        (fun b k => rfl) (fun b k => rfl) (fun b k => rfl) (fun b k => rfl)
        b k

/-- The delta-weighted loss surrogate is differentiable along any
differentiable family of parameters and inputs, and its derivative is
exactly the pairing of the `backward_pass` gradients with the parameter
direction plus the pairing of the input deltas with the input direction. -/
theorem lossAt_hasDerivAt {n m B : ℕ} (g sg : Activation ℝ)
    (hg : g.Valid) (hsg : sg.Valid) (P : ℝ → Params ℝ n m)
    (u : Params ℝ n m) (v0 : ℝ) (hP : HasParamsDerivAt P u v0)
    (X : ℝ → ℕ → Fin B → Fin m → ℝ) (ux : ℕ → Fin B → Fin m → ℝ)
    (hX : HasInputDerivAt X ux v0) (dl : ℕ → Fin B → Fin n → ℝ) (T : ℕ) :
    HasDerivAt (fun w => lossAt (P w) g sg (X w) dl T)
      (paramInner (backward_gradients (P v0) g sg (X v0) (fun _ _ => 0)
        (fun _ _ => 0) dl T) u +
       ∑ t ∈ Finset.range T, inn (backward_input_deltas (P v0) g sg (X v0)
        (fun _ _ => 0) (fun _ _ => 0) dl T t) (ux t)) v0 := by
  have hterm : ∀ t : ℕ, HasDerivAt
      (fun w => inn (dl t)
        (forwardAt (P w) g sg (X w) (fun _ _ => 0) (fun _ _ => 0) t).y)
      (inn (dl t)
        ((tangentAt (P v0) g sg (X v0) (fun _ _ => 0) (fun _ _ => 0)
          (injOf (P v0) g sg (X v0) (fun _ _ => 0) (fun _ _ => 0) u ux)
          t).ydot)) v0 := by
    intro t
    have hb : ∀ b : Fin B, HasDerivAt
        (fun w => ∑ k, dl t b k *
          (forwardAt (P w) g sg (X w) (fun _ _ => 0) (fun _ _ => 0) t).y b k)
        (∑ k, dl t b k *
          (tangentAt (P v0) g sg (X v0) (fun _ _ => 0) (fun _ _ => 0)
            (injOf (P v0) g sg (X v0) (fun _ _ => 0) (fun _ _ => 0) u ux)
            t).ydot b k) v0 := fun b =>
      HasDerivAt.sum fun k _ =>
        ((forwardAt_hasDerivAt g sg hg hsg P u v0 hP X ux hX t b k).1).const_mul
          (dl t b k)
    have h2 : HasDerivAt
        (fun w => ∑ b, ∑ k, dl t b k *
          (forwardAt (P w) g sg (X w) (fun _ _ => 0) (fun _ _ => 0) t).y b k)
        (∑ b, ∑ k, dl t b k *
          (tangentAt (P v0) g sg (X v0) (fun _ _ => 0) (fun _ _ => 0)
            (injOf (P v0) g sg (X v0) (fun _ _ => 0) (fun _ _ => 0) u ux)
            t).ydot b k) v0 := HasDerivAt.sum fun b _ => hb b
    exact h2
  have htan : HasDerivAt (fun w => ∑ t ∈ Finset.range T, inn (dl t)
      (forwardAt (P w) g sg (X w) (fun _ _ => 0) (fun _ _ => 0) t).y)
      (∑ t ∈ Finset.range T, inn (dl t)
        ((tangentAt (P v0) g sg (X v0) (fun _ _ => 0) (fun _ _ => 0)
          (injOf (P v0) g sg (X v0) (fun _ _ => 0) (fun _ _ => 0) u ux)
          t).ydot)) v0 := HasDerivAt.sum fun t _ => hterm t
  exact htan.congr_deriv
    (backward_gradients_directional (P v0) g sg (X v0) dl u ux T)

/-! ## Collapsing indicator directions to single coordinates -/

/-- Differentiability of a scalar slot that an update either overwrites
with the family parameter or leaves constant. -/
theorem hasDerivAt_coordSlot (a v0 : ℝ) (cnd : Prop) [Decidable cnd] :
    HasDerivAt (fun v => if cnd then v else a) (if cnd then 1 else 0) v0 := by
  by_cases h : cnd
  · simp only [if_pos h]
    exact hasDerivAt_id v0
  · simp only [if_neg h]
    exact hasDerivAt_const v0 a

/-- A doubly-indexed indicator sum collapses to the indicated entry. -/
theorem sum2_ind {q r : ℕ} (f : Fin q → Fin r → ℝ) (k0 : Fin q)
    (j0 : Fin r) :
    (∑ k, ∑ j, if k = k0 ∧ j = j0 then f k j else 0) = f k0 j0 := by
  have h1 : ∀ k : Fin q, (∑ j, if k = k0 ∧ j = j0 then f k j else 0) =
      if k = k0 then f k j0 else 0 := by
    intro k
    by_cases h : k = k0
    · subst h
      simp [Finset.sum_ite_eq]
    · simp [h]
  simp only [h1]
  simp [Finset.sum_ite_eq]

/-- A singly-indexed indicator sum collapses to the indicated entry. -/
theorem sum1_ind {q : ℕ} (f : Fin q → ℝ) (k0 : Fin q) :
    (∑ k, if k = k0 then f k else 0) = f k0 := by
  simp [Finset.sum_ite_eq]

/-- A triply-indexed indicator sum over a time range collapses to the
indicated entry when the indicated timestep is in range. -/
theorem sum3_ind {B m : ℕ} (T : ℕ) (f : ℕ → Fin B → Fin m → ℝ) (t0 : ℕ)
    (b0 : Fin B) (j0 : Fin m) :
    (∑ t ∈ Finset.range T, ∑ b, ∑ j,
      if t = t0 ∧ b = b0 ∧ j = j0 then f t b j else 0) =
    if t0 < T then f t0 b0 j0 else 0 := by
  have h1 : ∀ (t : ℕ) (b : Fin B),
      (∑ j, if t = t0 ∧ b = b0 ∧ j = j0 then f t b j else 0) =
      if t = t0 ∧ b = b0 then f t b j0 else 0 := by
    intro t b
    by_cases h : t = t0 ∧ b = b0
    · obtain ⟨ha, hb⟩ := h
      subst ha
      subst hb
      simp [Finset.sum_ite_eq]
    · have hn : ∀ j : Fin m, ¬(t = t0 ∧ b = b0 ∧ j = j0) :=
        fun j hh => h ⟨hh.1, hh.2.1⟩
      simp [hn, h]
  simp only [h1]
  have h2 : ∀ t : ℕ, (∑ b, if t = t0 ∧ b = b0 then f t b j0 else 0) =
      if t = t0 then f t b0 j0 else 0 := by
    intro t
    by_cases h : t = t0
    · subst h
      simp [Finset.sum_ite_eq]
    · have hn : ∀ b : Fin B, ¬(t = t0 ∧ b = b0) := fun b hh => h hh.1
      simp [hn, h]
  simp only [h2]
  simp [Finset.sum_ite_eq, Finset.mem_range]

/-- Pairing any gradient data against a coordinate's indicator direction
extracts exactly the gradient entry that coordinate names. -/
theorem collapse_coord {n m B : ℕ} (gr : Params ℝ n m)
    (dxs : ℕ → Fin B → Fin m → ℝ) (T : ℕ) (c : Coord n m B)
    (hc : coordInRange c T) :
    paramInner gr (coordDirParams c) +
      (∑ t ∈ Finset.range T, inn (dxs t) (coordDirInput c t)) =
    gradCoord gr dxs c := by
  cases c with
  | cWz k0 j0 =>
      simp [paramInner, coordDirParams, zeroParams, inn, coordDirInput,
        gradCoord, sum2_ind, sum1_ind]
  | cWi k0 j0 =>
      simp [paramInner, coordDirParams, zeroParams, inn, coordDirInput,
        gradCoord, sum2_ind, sum1_ind]
  | cWf k0 j0 =>
      simp [paramInner, coordDirParams, zeroParams, inn, coordDirInput,
        gradCoord, sum2_ind, sum1_ind]
  | cWo k0 j0 =>
      simp [paramInner, coordDirParams, zeroParams, inn, coordDirInput,
        gradCoord, sum2_ind, sum1_ind]
  | cWci k0 =>
      simp [paramInner, coordDirParams, zeroParams, inn, coordDirInput,
        gradCoord, sum2_ind, sum1_ind]
  | cWcf k0 =>
      simp [paramInner, coordDirParams, zeroParams, inn, coordDirInput,
        gradCoord, sum2_ind, sum1_ind]
  | cWco k0 =>
      simp [paramInner, coordDirParams, zeroParams, inn, coordDirInput,
        gradCoord, sum2_ind, sum1_ind]
  | cRz j0 k0 =>
      simp [paramInner, coordDirParams, zeroParams, inn, coordDirInput,
        gradCoord, sum2_ind, sum1_ind]
  | cRi j0 k0 =>
      simp [paramInner, coordDirParams, zeroParams, inn, coordDirInput,
        gradCoord, sum2_ind, sum1_ind]
  | cRf j0 k0 =>
      simp [paramInner, coordDirParams, zeroParams, inn, coordDirInput,
        gradCoord, sum2_ind, sum1_ind]
  | cRo j0 k0 =>
      simp [paramInner, coordDirParams, zeroParams, inn, coordDirInput,
        gradCoord, sum2_ind, sum1_ind]
  | cbz k0 =>
      simp [paramInner, coordDirParams, zeroParams, inn, coordDirInput,
        gradCoord, sum2_ind, sum1_ind]
  | cbi k0 =>
      simp [paramInner, coordDirParams, zeroParams, inn, coordDirInput,
        gradCoord, sum2_ind, sum1_ind]
  | cbf k0 =>
      simp [paramInner, coordDirParams, zeroParams, inn, coordDirInput,
        gradCoord, sum2_ind, sum1_ind]
  | cbo k0 =>
      simp [paramInner, coordDirParams, zeroParams, inn, coordDirInput,
        gradCoord, sum2_ind, sum1_ind]
  | cx t0 b0 j0 =>
      have ht : t0 < T := hc
      simp [paramInner, coordDirParams, zeroParams, inn, coordDirInput,
        gradCoord, sum3_ind, ht]

/-- Writing back the value a coordinate already holds leaves the
parameters unchanged. -/
theorem updateParams_read {n m B : ℕ} (p : Params ℝ n m)
    (x : ℕ → Fin B → Fin m → ℝ) (c : Coord n m B) :
    updateParams p c (readCoord p x c) = p := by
  cases c with
  | cWz k0 j0 =>
      show ({ p with Wz := fun k j =>
        if k = k0 ∧ j = j0 then p.Wz k0 j0 else p.Wz k j } : Params ℝ n m) = p
      rw [show (fun k j => if k = k0 ∧ j = j0 then p.Wz k0 j0 else p.Wz k j) =
        p.Wz from funext fun k => funext fun j => by
          by_cases h : k = k0 ∧ j = j0
          · rw [if_pos h, h.1, h.2]
          · rw [if_neg h]]
  | cWi k0 j0 =>
      show ({ p with Wi := fun k j =>
        if k = k0 ∧ j = j0 then p.Wi k0 j0 else p.Wi k j } : Params ℝ n m) = p
      rw [show (fun k j => if k = k0 ∧ j = j0 then p.Wi k0 j0 else p.Wi k j) =
        p.Wi from funext fun k => funext fun j => by
          by_cases h : k = k0 ∧ j = j0
          · rw [if_pos h, h.1, h.2]
          · rw [if_neg h]]
  | cWf k0 j0 =>
      show ({ p with Wf := fun k j =>
        if k = k0 ∧ j = j0 then p.Wf k0 j0 else p.Wf k j } : Params ℝ n m) = p
      rw [show (fun k j => if k = k0 ∧ j = j0 then p.Wf k0 j0 else p.Wf k j) =
        p.Wf from funext fun k => funext fun j => by
          by_cases h : k = k0 ∧ j = j0
          · rw [if_pos h, h.1, h.2]
          · rw [if_neg h]]
  | cWo k0 j0 =>
      show ({ p with Wo := fun k j =>
        if k = k0 ∧ j = j0 then p.Wo k0 j0 else p.Wo k j } : Params ℝ n m) = p
      rw [show (fun k j => if k = k0 ∧ j = j0 then p.Wo k0 j0 else p.Wo k j) =
        p.Wo from funext fun k => funext fun j => by
          by_cases h : k = k0 ∧ j = j0
          · rw [if_pos h, h.1, h.2]
          · rw [if_neg h]]
  | cWci k0 =>
      show ({ p with Wci := fun k =>
        if k = k0 then p.Wci k0 else p.Wci k } : Params ℝ n m) = p
      rw [show (fun k => if k = k0 then p.Wci k0 else p.Wci k) = p.Wci from
        funext fun k => by
          by_cases h : k = k0
          · rw [if_pos h, h]
          · rw [if_neg h]]
  | cWcf k0 =>
      show ({ p with Wcf := fun k =>
        if k = k0 then p.Wcf k0 else p.Wcf k } : Params ℝ n m) = p
      rw [show (fun k => if k = k0 then p.Wcf k0 else p.Wcf k) = p.Wcf from
        funext fun k => by
          by_cases h : k = k0
          · rw [if_pos h, h]
          · rw [if_neg h]]
  | cWco k0 =>
      show ({ p with Wco := fun k =>
        if k = k0 then p.Wco k0 else p.Wco k } : Params ℝ n m) = p
      rw [show (fun k => if k = k0 then p.Wco k0 else p.Wco k) = p.Wco from
        funext fun k => by
          by_cases h : k = k0
          · rw [if_pos h, h]
          · rw [if_neg h]]
  | cRz j0 k0 =>
      show ({ p with Rz := fun j k =>
        if j = j0 ∧ k = k0 then p.Rz j0 k0 else p.Rz j k } : Params ℝ n m) = p
      rw [show (fun j k => if j = j0 ∧ k = k0 then p.Rz j0 k0 else p.Rz j k) =
        p.Rz from funext fun j => funext fun k => by
          by_cases h : j = j0 ∧ k = k0
          · rw [if_pos h, h.1, h.2]
          · rw [if_neg h]]
  | cRi j0 k0 =>
      show ({ p with Ri := fun j k =>
        if j = j0 ∧ k = k0 then p.Ri j0 k0 else p.Ri j k } : Params ℝ n m) = p
      rw [show (fun j k => if j = j0 ∧ k = k0 then p.Ri j0 k0 else p.Ri j k) =
        p.Ri from funext fun j => funext fun k => by
          by_cases h : j = j0 ∧ k = k0
          · rw [if_pos h, h.1, h.2]
          · rw [if_neg h]]
  | cRf j0 k0 =>
      show ({ p with Rf := fun j k =>
        if j = j0 ∧ k = k0 then p.Rf j0 k0 else p.Rf j k } : Params ℝ n m) = p
      rw [show (fun j k => if j = j0 ∧ k = k0 then p.Rf j0 k0 else p.Rf j k) =
        p.Rf from funext fun j => funext fun k => by
          by_cases h : j = j0 ∧ k = k0
          · rw [if_pos h, h.1, h.2]
          · rw [if_neg h]]
  | cRo j0 k0 =>
      show ({ p with Ro := fun j k =>
        if j = j0 ∧ k = k0 then p.Ro j0 k0 else p.Ro j k } : Params ℝ n m) = p
      rw [show (fun j k => if j = j0 ∧ k = k0 then p.Ro j0 k0 else p.Ro j k) =
        p.Ro from funext fun j => funext fun k => by
          by_cases h : j = j0 ∧ k = k0
          · rw [if_pos h, h.1, h.2]
          · rw [if_neg h]]
  | cbz k0 =>
      show ({ p with bz := fun k =>
        if k = k0 then p.bz k0 else p.bz k } : Params ℝ n m) = p
      rw [show (fun k => if k = k0 then p.bz k0 else p.bz k) = p.bz from
        funext fun k => by
          by_cases h : k = k0
          · rw [if_pos h, h]
          · rw [if_neg h]]
  | cbi k0 =>
      show ({ p with bi := fun k =>
        if k = k0 then p.bi k0 else p.bi k } : Params ℝ n m) = p
      rw [show (fun k => if k = k0 then p.bi k0 else p.bi k) = p.bi from
        funext fun k => by
          by_cases h : k = k0
          · rw [if_pos h, h]
          · rw [if_neg h]]
  | cbf k0 =>
      show ({ p with bf := fun k =>
        if k = k0 then p.bf k0 else p.bf k } : Params ℝ n m) = p
      rw [show (fun k => if k = k0 then p.bf k0 else p.bf k) = p.bf from
        funext fun k => by
          by_cases h : k = k0
          · rw [if_pos h, h]
          · rw [if_neg h]]
  | cbo k0 =>
      show ({ p with bo := fun k =>
        if k = k0 then p.bo k0 else p.bo k } : Params ℝ n m) = p
      rw [show (fun k => if k = k0 then p.bo k0 else p.bo k) = p.bo from
        funext fun k => by
          by_cases h : k = k0
          · rw [if_pos h, h]
          · rw [if_neg h]]
  | cx t0 b0 j0 => rfl

/-- Writing back the value an input coordinate already holds leaves the
input tensor unchanged. -/
theorem updateInput_read {n m B : ℕ} (p : Params ℝ n m)
    (x : ℕ → Fin B → Fin m → ℝ) (c : Coord n m B) :
    updateInput x c (readCoord p x c) = x := by
  cases c
  case cx t0 b0 j0 =>
    show (fun t b j =>
      if t = t0 ∧ b = b0 ∧ j = j0 then x t0 b0 j0 else x t b j) = x
    funext t b j
    by_cases h : t = t0 ∧ b = b0 ∧ j = j0
    · rw [if_pos h, h.1, h.2.1, h.2.2]
    · rw [if_neg h]
  all_goals rfl

/-- Varying one parameter coordinate is a differentiable family whose
componentwise derivative is the coordinate's indicator direction. -/
theorem updateParams_deriv {n m B : ℕ} (p : Params ℝ n m) (c : Coord n m B)
    (v0 : ℝ) :
    HasParamsDerivAt (fun v => updateParams p c v) (coordDirParams c) v0 := by
  cases c
  case cx t0 b0 j0 =>
    exact ⟨fun k j => hasDerivAt_const v0 (p.Wz k j),
           fun k j => hasDerivAt_const v0 (p.Wi k j),
           fun k j => hasDerivAt_const v0 (p.Wf k j),
           fun k j => hasDerivAt_const v0 (p.Wo k j),
           fun k => hasDerivAt_const v0 (p.Wci k),
           fun k => hasDerivAt_const v0 (p.Wcf k),
           fun k => hasDerivAt_const v0 (p.Wco k),
           fun j k => hasDerivAt_const v0 (p.Rz j k),
           fun j k => hasDerivAt_const v0 (p.Ri j k),
           fun j k => hasDerivAt_const v0 (p.Rf j k),
           fun j k => hasDerivAt_const v0 (p.Ro j k),
           fun k => hasDerivAt_const v0 (p.bz k),
           fun k => hasDerivAt_const v0 (p.bi k),
           fun k => hasDerivAt_const v0 (p.bf k),
           fun k => hasDerivAt_const v0 (p.bo k)⟩
  all_goals
    refine ⟨?_, ?_, ?_, ?_, ?_, ?_, ?_, ?_, ?_, ?_, ?_, ?_, ?_, ?_, ?_⟩ <;>
    intros <;>
    first
      | exact hasDerivAt_coordSlot _ v0 _
      | exact hasDerivAt_const v0 _

/-- Varying one input coordinate is a differentiable family whose
componentwise derivative is the coordinate's indicator direction. -/
theorem updateInput_deriv {n m B : ℕ} (x : ℕ → Fin B → Fin m → ℝ)
    (c : Coord n m B) (v0 : ℝ) :
    HasInputDerivAt (fun v => updateInput x c v) (coordDirInput c) v0 := by
  cases c
  case cx t0 b0 j0 =>
    intro t b j
    exact hasDerivAt_coordSlot _ v0 _
  all_goals
    intro t b j
    exact hasDerivAt_const v0 (x t b j)

/-- C1: for activation functions whose derivative-given-output form is the
true derivative everywhere (sigmoid and linear are such; the backend's
rectifier is not, see the counterexample), the gradient entry that
`backward_pass` computes after a `forward_pass` — for each scalar weight
and each in-range input element — is exactly the mathematical partial
derivative of the delta-weighted output functional at that coordinate. -/
theorem backward_pass_computes_gradient {n m B : ℕ} (g sg : Activation ℝ)
    (hg : g.Valid) (hsg : sg.Valid) (p : Params ℝ n m)
    (x : ℕ → Fin B → Fin m → ℝ) (dl : ℕ → Fin B → Fin n → ℝ) (T : ℕ)
    (c : Coord n m B) (hc : coordInRange c T) :
    HasDerivAt
      (fun v => lossAt (updateParams p c v) g sg (updateInput x c v) dl T)
      (gradCoord
        (backward_gradients p g sg x (fun _ _ => 0) (fun _ _ => 0) dl T)
        (backward_input_deltas p g sg x (fun _ _ => 0) (fun _ _ => 0) dl T)
        c)
      (readCoord p x c) := by
  have h := lossAt_hasDerivAt g sg hg hsg (fun v => updateParams p c v)
    (coordDirParams c) (readCoord p x c) (updateParams_deriv p c _)
    (fun v => updateInput x c v) (coordDirInput c)
    (updateInput_deriv x c _) dl T
  rw [updateParams_read p x c, updateInput_read p x c] at h
  exact h.congr_deriv
    (collapse_coord
      (backward_gradients p g sg x (fun _ _ => 0) (fun _ _ => 0) dl T)
      (backward_input_deltas p g sg x (fun _ _ => 0) (fun _ _ => 0) dl T)
      T c hc)

/-- Witness for C1 at a concrete configuration: one unit, one feature, one
batch row, one timestep, linear activations, the output-bias coordinate. -/
theorem backward_pass_computes_gradient_witness :
    (linearAct ℝ).Valid ∧
    coordInRange (Coord.cbz 0 : Coord 1 1 1) 1 ∧
    HasDerivAt
      (fun v => lossAt
        (updateParams (zeroParams : Params ℝ 1 1)
          (Coord.cbz 0 : Coord 1 1 1) v)
        (linearAct ℝ) (linearAct ℝ)
        (updateInput (fun _ _ _ => (0 : ℝ)) (Coord.cbz 0 : Coord 1 1 1) v)
        (fun _ _ _ => (1 : ℝ)) 1)
      (gradCoord
        (backward_gradients (zeroParams : Params ℝ 1 1) (linearAct ℝ)
          (linearAct ℝ) ((fun _ _ _ => 0) : ℕ → Fin 1 → Fin 1 → ℝ)
          (fun _ _ => 0) (fun _ _ => 0)
          ((fun _ _ _ => 1) : ℕ → Fin 1 → Fin 1 → ℝ) 1)
        (backward_input_deltas (zeroParams : Params ℝ 1 1) (linearAct ℝ)
          (linearAct ℝ) ((fun _ _ _ => 0) : ℕ → Fin 1 → Fin 1 → ℝ)
          (fun _ _ => 0) (fun _ _ => 0)
          ((fun _ _ _ => 1) : ℕ → Fin 1 → Fin 1 → ℝ) 1)
        (Coord.cbz 0 : Coord 1 1 1))
      (readCoord (zeroParams : Params ℝ 1 1) (fun _ _ _ => (0 : ℝ))
        (Coord.cbz 0 : Coord 1 1 1)) :=
  ⟨linearAct_valid, trivial,
    backward_pass_computes_gradient (linearAct ℝ) (linearAct ℝ)
      linearAct_valid linearAct_valid zeroParams (fun _ _ _ => (0 : ℝ))
      (fun _ _ _ => (1 : ℝ)) 1 (Coord.cbz 0 : Coord 1 1 1) trivial⟩

/-- C1 counterexample: with the backend's `rel` activation the claim fails
as stated — at an all-zero parameter setting with unit input, the
delta-weighted output functional is not differentiable at the current
value of weight `Wz[0,0]`, so no mathematical gradient exists there for
`backward_pass` to match. -/
theorem rel_loss_not_differentiable :
    ¬ DifferentiableAt ℝ
      (fun v => lossAt
        (updateParams (zeroParams : Params ℝ 1 1)
          (Coord.cWz 0 0 : Coord 1 1 1) v)
        relAct sigmoidAct
        (updateInput ((fun _ _ _ => 1) : ℕ → Fin 1 → Fin 1 → ℝ)
          (Coord.cWz 0 0 : Coord 1 1 1) v)
        ((fun _ _ _ => 1) : ℕ → Fin 1 → Fin 1 → ℝ) 1)
      (readCoord (zeroParams : Params ℝ 1 1) (fun _ _ _ => 1)
        (Coord.cWz 0 0 : Coord 1 1 1)) := by
  intro hD
  have hread : readCoord (zeroParams : Params ℝ 1 1) (fun _ _ _ => 1)
      (Coord.cWz 0 0 : Coord 1 1 1) = 0 := rfl
  have hE : (fun v => lossAt
      (updateParams (zeroParams : Params ℝ 1 1)
        (Coord.cWz 0 0 : Coord 1 1 1) v)
      relAct sigmoidAct
      (updateInput ((fun _ _ _ => 1) : ℕ → Fin 1 → Fin 1 → ℝ)
        (Coord.cWz 0 0 : Coord 1 1 1) v)
      ((fun _ _ _ => 1) : ℕ → Fin 1 → Fin 1 → ℝ) 1) =
      fun v : ℝ => max v 0 / 4 := by
    funext v
    simp [lossAt, Finset.sum_range_one, inn, Fin.sum_univ_one, forwardAt,
      forwardStep, updateParams, updateInput, zeroParams, relAct,
      sigmoidAct, Real.exp_zero]
    ring
  rw [hread, hE] at hD
  have h1 : HasDerivWithinAt (fun v : ℝ => max v 0 / 4) ((1 : ℝ)/4)
      (Set.Ici 0) 0 := by
    have hg : HasDerivWithinAt (fun v : ℝ => v / 4) ((1 : ℝ)/4)
        (Set.Ici 0) 0 :=
      ((hasDerivAt_id (0 : ℝ)).div_const 4).hasDerivWithinAt
    refine hg.congr (fun y hy => ?_) (by simp)
    rw [max_eq_left (Set.mem_Ici.mp hy)]
  have h2 : HasDerivWithinAt (fun v : ℝ => max v 0 / 4) (0 : ℝ)
      (Set.Iic 0) 0 := by
    have hg : HasDerivWithinAt (fun _ : ℝ => (0 : ℝ)) (0 : ℝ)
        (Set.Iic 0) 0 :=
      (hasDerivAt_const (0 : ℝ) (0 : ℝ)).hasDerivWithinAt
    refine hg.congr (fun y hy => ?_) (by simp)
    rw [max_eq_right (Set.mem_Iic.mp hy), zero_div]
  have e1 := (uniqueDiffOn_Ici (0 : ℝ) 0 Set.left_mem_Ici).eq_deriv _
    hD.hasDerivAt.hasDerivWithinAt h1
  have e2 := (uniqueDiffOn_Iic (0 : ℝ) 0 Set.right_mem_Iic).eq_deriv _
    hD.hasDerivAt.hasDerivWithinAt h2
  rw [e2] at e1
  norm_num at e1

end Brainstorm
